import Mathlib

set_option maxRecDepth 10000

/-!
# Verification of the pentomino solver (`grow_tree.py`, `solve.py`)

Shallow embedding of the tree-generation module `grow_tree.py` and the
backtracking solver `solve.py`.  Python 2-element coordinate lists `[a, b]`
are modelled as pairs `(a, b) : Int × Int`; Python dicts acting as records
become structures; fallible dict/`list.index` lookups become `Option`.
Recursive Python functions whose termination is semantic (`gen_tree`,
`count_open_area`, `find_tiles`, `chk_ps`) are embedded with an explicit
structural fuel parameter chosen at the call site to be at least the depth
the Python recursion actually reaches, so that the definitions reduce in
the kernel.
-/

namespace Pent

/-- A coordinate: the Python two-element list `[a, b]`. -/
abbrev Coord := Int × Int

/-- A board: list of rows of characters, as in `solve.py`. -/
abbrev Board := List (List Char)

/-- A raw tree node produced by `gen_tree` (fields `coord`, `lineage`,
`pindx` of the node dicts in `grow_tree.py`; the root has `pindx = -1`). -/
structure RNode where
  coord : Coord
  lineage : List Coord
  pindx : Int
  deriving DecidableEq, Repr

/-- Default node used for out-of-range list indexing (never reached on the
actual tree). -/
def dfltNode : RNode := ⟨(0, 0), [], -1⟩

/-- `coord_to_id` from `get_val` in `grow_tree.py`:
`dist*(dist-1) + dist + coord[0]` with `dist = abs(x) + abs(y)`. -/
def coord_to_id (coord : Coord) : Int :=
  let dist : Int := ((coord.1.natAbs + coord.2.natAbs : Nat) : Int)
  dist * (dist - 1) + dist + coord.1

/-- `get_val` from `grow_tree.py`: the sum of `2 ** coord_to_id(c)` over the
coordinate list.  The exponent is always nonnegative
(`dist² + x ≥ dist² - dist ≥ 0`), so Python's `2 ** id` is `2 ^ id.toNat`. -/
def get_val (node_v : List Coord) : Nat :=
  (node_v.map (fun c => 2 ^ (coord_to_id c).toNat)).sum

/-- `flipf` inside `gen_rots`: swap the two entries of every coordinate. -/
def flipf (points : List Coord) : List Coord :=
  points.map (fun p => (p.2, p.1))

/-- `shift_right` inside `gen_rots`: translate so the minimal first
coordinate becomes 0. -/
def shift_right (spoints : List Coord) : List Coord :=
  let hlim := ((spoints.map Prod.fst).min?).getD 0
  spoints.map (fun p => (p.1 - hlim, p.2))

/-- `shift_up` inside `gen_rots`: translate so the minimal second
coordinate becomes 0. -/
def shift_up (spoints : List Coord) : List Coord :=
  let vlim := ((spoints.map Prod.snd).min?).getD 0
  spoints.map (fun p => (p.1, p.2 - vlim))

/-- `cmp_fig` inside `gen_rots`: scale by the rotation factors, normalise,
and fingerprint with `get_val`. -/
def cmp_fig (points : List Coord) (rot_fctrs : Int × Int) : Nat :=
  get_val (shift_up (shift_right
    (points.map (fun p => (p.1 * rot_fctrs.1, p.2 * rot_fctrs.2)))))

/-- `gen_rots` from `grow_tree.py`: the eight orientation fingerprints of a
point set (four sign patterns, each on the points and on their transpose). -/
def gen_rots (points : List Coord) : List Nat :=
  ([((1 : Int), (1 : Int)), (1, -1), (-1, 1), (-1, -1)].map
    (fun rf => [cmp_fig points rf, cmp_fig (flipf points) rf])).flatten

/-- The 12-entry signature table inside `get_figure`; a missing key is the
Python `KeyError`, modelled as `none`. -/
def figTable (fignum : Nat) : Option Char :=
  match fignum with
  | 55 => some 'P'
  | 87 => some 'V'
  | 118 => some 'W'
  | 535 => some 'L'
  | 563 => some 'Y'
  | 566 => some 'N'
  | 1047 => some 'U'
  | 1125 => some 'T'
  | 1126 => some 'F'
  | 1140 => some 'Z'
  | 3110 => some 'X'
  | 66067 => some 'I'
  | _ => none

/-- `get_figure` from `grow_tree.py`: table lookup at the minimum of the
eight orientation fingerprints of `lineage + [coord]`. -/
def get_figure (figure : RNode) : Option Char :=
  figTable (((gen_rots (figure.lineage ++ [figure.coord])).min?).getD 0)

/-- The `{dfo, sv}` dict built by `id_to_dict` in `next_level`. -/
structure IdDict where
  dfo : Int
  sv : Int
  deriving DecidableEq, Repr

/-- `id_to_dict` from `next_level`: the last pair
`{dfo: r+1, sv: numb - r*(r+1)}` with positive `sv`, for `r` in `0..3`. -/
def id_to_dict (numb : Int) : IdDict :=
  ((((List.range 4).map
      (fun rangev => IdDict.mk ((rangev : Int) + 1)
        (numb - (rangev : Int) * ((rangev : Int) + 1)))).filter
    (fun d => d.sv > 0)).getLastD ⟨0, 0⟩)

/-- `id_dconv` from `next_level`: convert an `IdDict` back to a coordinate
`[yval, dfo - abs(yval)]` with `yval = sv - dfo`. -/
def id_dconv (idict : IdDict) : Coord :=
  let yval := idict.sv - idict.dfo
  (yval, idict.dfo - ((yval.natAbs : Nat) : Int))

/-- `max_indx` from `next_level`. -/
def max_indx (indx : Nat) : Nat := (indx + 1) * (indx + 2)

/-- Python `range(m, 0, -1)`: the list `[m, m-1, ..., 1]`. -/
def rangeDown (m : Nat) : List Nat :=
  (List.range m).reverse.map (· + 1)

/-- `get_off_coords` from `next_level`: candidate coordinates for the
children of a parent node (an `enumerate` pair), obtained by decoding the
ids `max_indx(len(lineage)) .. 1` in that order. -/
def get_off_coords (p_node : Nat × RNode) : List Coord :=
  (rangeDown (max_indx p_node.2.lineage.length)).map
    (fun (sq_id : Nat) => id_dconv (id_to_dict (sq_id : Int)))

/-- `find_n` from `next_level`: `[]` when the candidate is already a cell of
the parent's shape, otherwise the shape cells at Manhattan distance 1. -/
def find_n (p_node : Nat × RNode) (off_coord : Coord) : List Coord :=
  if off_coord = p_node.2.coord ∨ off_coord ∈ p_node.2.lineage then []
  else ([p_node.2.coord] ++ p_node.2.lineage).filter
    (fun t => (t.1 - off_coord.1).natAbs + (t.2 - off_coord.2).natAbs = 1)

/-- `get_off` from `next_level`: candidates kept by the truthiness filter
`filter(find_n(p_node), ...)` (a nonempty neighbour list is truthy). -/
def get_off (p_node : Nat × RNode) : List Coord :=
  (get_off_coords p_node).filter (fun c => !(find_n p_node c).isEmpty)

/-- `glin` from `next_level`. -/
def glin (n : RNode) : List Coord := n.lineage ++ [n.coord]

/-- `next_level` from `grow_tree.py`: each parent node (with its enumerate
index) contributes one child node per accepted candidate coordinate. -/
def next_level (prev_nodes : List (List RNode)) : List RNode :=
  let last := prev_nodes.getLastD []
  (last.enum.map (fun pi =>
    (get_off pi).map (fun c =>
      RNode.mk c (glin (last.getD pi.1 dfltNode)) (pi.1 : Int)))).flatten

/-- `comp_val` from `rm_dups`. -/
def comp_val (node_v : RNode) : Nat := get_val (node_v.lineage ++ [node_v.coord])

/-- `rm_dups` from `grow_tree.py`: keep the nodes whose `comp_val` does not
occur earlier in the level (`nvals[i] not in nvals[0:i]`). -/
def rm_dups (tree_lev : List RNode) : List RNode :=
  let nvals := tree_lev.map comp_val
  let tf := (List.range nvals.length).map
    (fun i => !(decide (nvals.getD i 0 ∈ nvals.take i)))
  ((tree_lev.zip tf).filter (fun z => z.2)).map (fun z => z.1)

/-- `gen_tree` from `grow_tree.py`, with structural fuel: the Python
recursion adds one level per call and stops at 5 levels, so fuel
`5 - len(prev)` (supplied by `gen_tree`) reproduces it exactly. -/
def gen_tree_fuel : Nat → List (List RNode) → List (List RNode)
  | 0, prev_nodes => prev_nodes
  | fuel + 1, prev_nodes =>
    if prev_nodes.length ≥ 5 then prev_nodes
    else gen_tree_fuel fuel (prev_nodes ++ [rm_dups (next_level prev_nodes)])

/-- `gen_tree` from `grow_tree.py`. -/
def gen_tree (prev_nodes : List (List RNode)) : List (List RNode) :=
  gen_tree_fuel (5 - prev_nodes.length) prev_nodes

/-- `grow_raw_tree` inside `grow_tree`. -/
def grow_raw_tree : List (List RNode) :=
  gen_tree [[⟨(0, 0), [], -1⟩]]

/-- A node of the first four levels after `add_olinks`: the `offspring`
field is `link_data[index]` where `link_data` comes from Python
`list.index`, which can fail — hence `Option Nat`. -/
structure ONode extends RNode where
  offspring : Option Nat
  deriving DecidableEq, Repr

/-- A leaf node after `add_pent_numbs`: `figure` is the (fallible) table
lookup of `get_figure`. -/
structure FNode extends RNode where
  figure : Option Char
  deriving DecidableEq, Repr

/-- `ol_inn` inside `add_olinks`: attach to each node of level `row_num`
the index of its first child in level `row_num + 1` (`set_oindx` uses
`list.index`, modelled with `findIdx?`; `gp_index` is the last child's
`pindx`). -/
def ol_inn (rtree : List (List RNode)) (row_num : Nat) : List ONode :=
  let nxt := rtree.getD (row_num + 1) []
  let gp_index : Int := ((nxt.getLast?.map RNode.pindx).getD (-1))
  let link_data : List (Option Nat) :=
    (List.range (gp_index + 1).toNat).map
      (fun i => nxt.findIdx? (fun n => n.pindx = (i : Int)))
  (rtree.getD row_num []).enum.map
    (fun inode => ONode.mk inode.2 (link_data.getD inode.1 none))

/-- The finished tree of `grow_tree()`: levels 0–3 with `offspring` links,
level 4 with `figure` letters. -/
structure PentTree where
  inner : List (List ONode)
  leaves : List FNode
  deriving DecidableEq, Repr

/-- `grow_tree` from `grow_tree.py`: raw tree, then `add_olinks` on levels
0–3, then `add_pent_numbs` on the leaf level. -/
def grow_tree : PentTree :=
  let rtree := grow_raw_tree
  ⟨(List.range 4).map (ol_inn rtree),
   (rtree.getD 4 []).map (fun f => FNode.mk f (get_figure f))⟩

/-! ## Embedding of `solve.py` -/

/-- `get_x_x_range` from `solve.py`. -/
def get_x_x_range (ydim : Nat) : Nat := (7 - ydim) * 2 + ydim / 3

/-- The `{'ydim','xdim','xinfo','xmax'}` dict built by `get_box_parms`. -/
structure BoxParms where
  ydim : Nat
  xdim : Nat
  xinfo : List Nat
  xmax : Nat
  deriving DecidableEq, Repr

/-- `gen_xrow` from `mk_board`; Python list replication clamps negative
multiplicities to zero, hence `Int.toNat`. -/
def gen_xrow (a b c : Int) : List Char :=
  List.replicate a.toNat '-' ++ List.replicate b.toNat 'X' ++
    List.replicate c.toNat '-'

/-- `mk_row` inside `mk_board`: one row of a board with the X pentomino
centred at column `col_info + 1`, rows `row_num .. row_num + 2`. -/
def mk_row (board : BoxParms) (row_num col_info b_row_num : Nat) : List Char :=
  if b_row_num = row_num ∨ b_row_num = row_num + 2 then
    gen_xrow ((col_info : Int) + 1) 1 ((board.xdim : Int) - col_info - 2)
  else if b_row_num = row_num + 1 then
    gen_xrow (col_info : Int) 3 ((board.xdim : Int) - col_info - 3)
  else List.replicate board.xdim '-'

/-- `gen_board` inside `mk_board`. -/
def gen_board (board : BoxParms) (row_num col_info : Nat) : Board :=
  (List.range board.ydim).map (mk_row board row_num col_info)

/-- `mk_b_rows` inside `mk_board`: boards with X centred on column
`col_info + 1` for `col_info` in `range(xinfo[row_num], xmax)`. -/
def mk_b_rows (board : BoxParms) (row_num : Nat) : List Board :=
  (List.range' (board.xinfo.getD row_num 0)
      (get_x_x_range board.ydim - board.xinfo.getD row_num 0)).map
    (gen_board board row_num)

/-- `mk_indiv_sz` inside `mk_board`: the `"{ydim}x{xdim}"` key with all
boards of that rectangle. -/
def mk_indiv_sz (board : BoxParms) : String × List Board :=
  (toString board.ydim ++ "x" ++ toString board.xdim,
   ((List.range board.xinfo.length).map (mk_b_rows board)).flatten)

/-- `mk_board` from `solve.py` (the Python dict is an association list). -/
def mk_board (board_info : List BoxParms) : List (String × List Board) :=
  board_info.map mk_indiv_sz

/-- `get_box_parms` inside `get_boards`: `xinfo = range(1, 1-row_cnt, -1)`
which is `[1]` for `row_cnt = 1` and `[1, 0]` for `row_cnt = 2` (the only
values arising, since `ydim ≤ 6`). -/
def get_box_parms (ydim : Nat) : BoxParms :=
  let row_cnt := (ydim - 1) / 2
  ⟨ydim, 60 / ydim, (List.range row_cnt).map (fun i => 1 - i),
   get_x_x_range ydim⟩

/-- `get_boards` from `solve.py`: boards for `ydim` in `range(3, 7)`. -/
def get_boards : List (String × List Board) :=
  mk_board ((List.range' 3 4).map get_box_parms)

/-- Python `zip(*board)`: the transpose truncated to the shortest row. -/
def pyZipStar (board : Board) : Board :=
  let m := ((board.map List.length).min?).getD 0
  (List.range m).map (fun c => board.map (fun row => row.getD c ' '))

/-- `find_origin` from `solve.py`: position of the first `'-'` in the
column-major flattening, returned as `[number % height, number // height]`. -/
def find_origin (board : Board) : Coord :=
  let number := (pyZipStar board).flatten.indexOf '-'
  (((number % board.length : Nat) : Int), ((number / board.length : Nat) : Int))

/-- `set_points_in_board` from `solve.py`: each listed cell that currently
holds `'-'` is replaced by `value`; every other cell is kept. -/
def set_points_in_board (points : List Coord) (board : Board) (value : Char) :
    Board :=
  board.enum.map (fun row =>
    row.2.enum.map (fun col =>
      if ((row.1 : Int), (col.1 : Int)) ∈ points ∧ col.2 = '-' then value
      else col.2))

/-- `add_fig_brd` from `solve.py`: the five absolute cells of a leaf figure
placed at `origin`. -/
def add_fig_brd (figure : FNode) (origin : Coord) : List Coord :=
  figure.lineage.map (fun p => (origin.1 + p.1, origin.2 + p.2)) ++
    [(origin.1 + figure.coord.1, origin.2 + figure.coord.2)]

/-- `increase_a_range` inside `chk_open_area`: one cell of one marking
pass, computed from the input board (a synchronous update). -/
def increase_a_range (board : Board) (coord : Nat × Nat) : Char :=
  if (board.getD coord.1 []).getD coord.2 ' ' ≠ '-' then
    (board.getD coord.1 []).getD coord.2 ' '
  else if coord.1 > 0 ∧ (board.getD (coord.1 - 1) []).getD coord.2 ' ' = 'A' then 'A'
  else if coord.2 > 0 ∧ (board.getD coord.1 []).getD (coord.2 - 1) ' ' = 'A' then 'A'
  else if coord.1 < board.length - 1 ∧
      (board.getD (coord.1 + 1) []).getD coord.2 ' ' = 'A' then 'A'
  else if coord.2 < (board.getD 0 []).length - 1 ∧
      (board.getD coord.1 []).getD (coord.2 + 1) ' ' = 'A' then 'A'
  else '-'

/-- `chk_open_area` from `solve.py`: one full-grid marking pass. -/
def chk_open_area (board : Board) : Board :=
  (List.range board.length).map (fun y =>
    (List.range (board.getD 0 []).length).map (fun x => increase_a_range board (y, x)))

/-- Number of `'A'` cells of a board (`list(chain.from_iterable(b)).count('A')`). -/
def countA (board : Board) : Nat := board.flatten.count 'A'

/-- `count_open_area` from `solve.py`, with structural fuel: the Python
recursion strictly increases the `'A'` count, which is bounded by the cell
count, so the fuel supplied by `count_open_area` is never exhausted. -/
def count_open_area_fuel : Nat → Board → Nat
  | 0, board => countA board
  | fuel + 1, board =>
    let pbc := countA board
    let newb := chk_open_area board
    if countA newb = pbc then pbc else count_open_area_fuel fuel newb

/-- `count_open_area` from `solve.py`. -/
def count_open_area (board : Board) : Nat :=
  count_open_area_fuel board.flatten.length board

/-- `fragment_ok` from `solve.py`: mark the first open cell `'A'`, flood to
a fixed point, and test divisibility by 5. -/
def fragment_ok (board : Board) : Bool :=
  count_open_area (set_points_in_board [find_origin board] board 'A') % 5 = 0

/-- `make_layout_cmd` from `solve.py`: keep the boards passing `fragment_ok`. -/
def make_layout_cmd (sdata : List (String × List Board)) :
    List (String × List Board) :=
  sdata.map (fun kv =>
    (kv.1, (kv.2.map (fun b => if fragment_ok b then [b] else [])).flatten))

/-- `ycount` inside `no_symmetry_issue`. -/
def ycount (ycnt : Board) : Nat := ycnt.flatten.count 'Y'

/-- `nsi_comp` inside `no_symmetry_issue`: if the middle line holds exactly
3 `'X'` cells, reject when more `'Y'` cells lie before the line than after. -/
def nsi_comp (nboard : Board) : Bool :=
  let mid_point := nboard.length / 2
  if (nboard.getD mid_point []).count 'X' ≠ 3 then true
  else !(ycount (nboard.take mid_point) > ycount (nboard.drop (mid_point + 1)))

/-- `no_symmetry_issue` from `solve.py`. -/
def no_symmetry_issue (board : Board) : Bool :=
  if (board.getD 0 []).length = 10 then true
  else if (board.getD 0 []).length % 2 = 1 then nsi_comp (pyZipStar board)
  else nsi_comp board

/-- `stringify` from `solve.py`: `'\n'.join` of the rows, written at the
character-list level (joining the rows with a single `'\n'` between
consecutive rows). -/
def stringify (board : Board) : String :=
  (List.intercalate ['\n'] board).asString

/-- `is_bad` inside `solve.py`'s `handle_one_layout_set`: the absolute cell
`origin + coord` is out of bounds or not `'-'`. -/
def is_bad (origin coord : Coord) (board : Board) : Bool :=
  let f0 := origin.1 + coord.1
  let f1 := origin.2 + coord.2
  if f0 ≥ (board.length : Int) then true
  else if f1 ≥ (((board.getD 0 []).length : Nat) : Int) then true
  else if f0 < 0 then true
  else if f1 < 0 then true
  else if (board.getD f0.toNat []).getD f1.toNat ' ' ≠ '-' then true
  else false

/-- The nodes of tree level `level` as seen by `solve.py`'s `tree[level]`
(the `offspring`/`figure` decorations are irrelevant to the traversal). -/
def tlevel (tree : PentTree) (level : Nat) : List RNode :=
  if level ≤ 3 then (tree.inner.getD level []).map ONode.toRNode
  else tree.leaves.map FNode.toRNode

/-- Default leaf used for out-of-range indexing. -/
def dfltFNode : FNode := ⟨dfltNode, none⟩

/-- `tree[4][fnumb]` in `solve.py`. -/
def leafNode (tree : PentTree) (fnumb : Int) : FNode :=
  tree.leaves.getD fnumb.toNat dfltFNode

/-- `tree[4][fnumb]['figure']` in `solve.py` (`'?'` stands for the
impossible failed table lookup). -/
def leafFig (tree : PentTree) (fnumb : Int) : Char :=
  (leafNode tree fnumb).figure.getD '?'

/-- `f_gnodes` inside `find_tiles`: indices of the nodes of the given level
whose parent index is admissible and whose absolute cell is not bad. -/
def f_gnodes (tree : PentTree) (level : Nat) (good_p : List Int)
    (origin : Coord) (board : Board) : List Int :=
  (((tlevel tree level).enum.filter (fun ni =>
      decide (ni.2.pindx ∈ good_p) && !(is_bad origin ni.2.coord board))).map
    (fun ni => (ni.1 : Int)))

/-- `find_tiles` from `solve.py`, with structural fuel: the recursion walks
levels `1, 2, 3, 4` and stops at level 4, so fuel 4 (supplied by
`find_tiles`) reproduces it from level 1. -/
def find_tiles_fuel (tree : PentTree) :
    Nat → Nat → List Int → Coord → Board → List Int
  | 0, _, good_p, _, _ => good_p
  | fuel + 1, level, good_p, origin, board =>
    let ns := f_gnodes tree level good_p origin board
    if level = 4 then ns
    else find_tiles_fuel tree fuel (level + 1) ns (find_origin board) board

/-- `find_tiles` started at level 1 with admissible-parent set `{0}`, as in
`ldft` inside `chk_ps`. -/
def find_tiles (tree : PentTree) (board : Board) : List Int :=
  find_tiles_fuel tree 4 1 [0] (find_origin board) board

/-- `dup_pc` inside `chk_ps`: reject a leaf whose figure letter already
appears on the board. -/
def dup_pc (tree : PentTree) (sboard : Board) (pnumb : Int) : Bool :=
  !(sboard.flatten.contains (leafFig tree pnumb))

/-- `chk_ps` from `solve.py` (with `do_recurs` and `w_newboard` inlined),
with structural fuel: each recursive call is on a board with strictly fewer
`'-'` cells, so any fuel of at least 12 reproduces the Python recursion on
the solver's boards; the soundness theorems quantify over all fuels. -/
def chk_ps_fuel (tree : PentTree) : Nat → Board → List String
  | 0, _ => []
  | fuel + 1, sboard =>
    (((find_tiles tree sboard).filter (dup_pc tree sboard)).map (fun fnumb =>
      let newboard := set_points_in_board
        (add_fig_brd (leafNode tree fnumb) (find_origin sboard)) sboard
        (leafFig tree fnumb)
      if newboard.flatten.count '-' = 0 then
        if no_symmetry_issue newboard then [stringify newboard] else []
      else if fragment_ok newboard ∧ no_symmetry_issue newboard then
        chk_ps_fuel tree fuel newboard
      else [])).flatten

/-- `solve` from `solve.py` (fuel passed to the per-board `chk_ps`). -/
def solve_fuel (fuel : Nat) : List (String × List String) :=
  (make_layout_cmd get_boards).map (fun kv =>
    (kv.1, (kv.2.map (chk_ps_fuel grow_tree fuel)).flatten))

/-! ## Auxiliary definitions used by the statements -/

/-- A concrete 4×15 board: an X pentomino centred on the middle column
(column 7) and a Y pentomino on the left half. -/
def symBoard4x15 : Board :=
  [['-', 'Y', '-', '-', '-', '-', '-', 'X', '-', '-', '-', '-', '-', '-', '-'],
   ['Y', 'Y', '-', '-', '-', '-', 'X', 'X', 'X', '-', '-', '-', '-', '-', '-'],
   ['-', 'Y', '-', '-', '-', '-', '-', 'X', '-', '-', '-', '-', '-', '-', '-'],
   ['-', 'Y', '-', '-', '-', '-', '-', '-', '-', '-', '-', '-', '-', '-', '-']]

/-- Keep, for each distinct `comp_val` value, exactly the first node in
order, discarding later nodes whose value was already seen (the behaviour
the specification ascribes to the dedup pass). -/
def keepFirsts (seen : List Nat) : List RNode → List RNode
  | [] => []
  | x :: xs =>
    if comp_val x ∈ seen then keepFirsts seen xs
    else x :: keepFirsts (comp_val x :: seen) xs


/-- The board cell at integer coordinates `(r, c)` (row, column), read the
way `solve.py` indexes boards. -/
def cellAt (board : Board) (p : Coord) : Char :=
  (board.getD p.1.toNat []).getD p.2.toNat ' '

/-- `(r, c)` lies within the board rectangle (row count × row-0 width). -/
def inBounds (board : Board) (p : Coord) : Prop :=
  0 ≤ p.1 ∧ p.1 < (board.length : Int) ∧ 0 ≤ p.2 ∧
    p.2 < ((board.getD 0 []).length : Int)

/-- The 12 pentomino letters. -/
def LETTERS : List Char :=
  ['F', 'I', 'L', 'N', 'P', 'T', 'U', 'V', 'W', 'X', 'Y', 'Z']

/-- The invariant maintained along the `chk_ps` recursion: a rectangular
60-cell board whose cells are `'-'` or pentomino letters, each letter
appearing 0 or 5 times, with at least one `'-'` left. -/
def XPlacedInv (board : Board) : Prop :=
  (∀ row ∈ board, row.length = (board.getD 0 []).length) ∧
  0 < board.length ∧
  board.flatten.length = 60 ∧
  (∀ ch ∈ board.flatten, ch = '-' ∨ ch ∈ LETTERS) ∧
  (∀ ch ∈ LETTERS, board.flatten.count ch = 0 ∨ board.flatten.count ch = 5) ∧
  0 < board.flatten.count '-'

/-- A complete solution string: no empty-cell marker, and each of the 12
pentomino letters occupies exactly 5 cells. -/
def fullSolution (s : String) : Prop :=
  '-' ∉ s.data ∧ ∀ ch ∈ LETTERS, s.data.count ch = 5

/-- `XPlacedInv` is decidable (used to check the initial boards). -/
instance (board : Board) : Decidable (XPlacedInv board) :=
  inferInstanceAs (Decidable (
    (∀ row ∈ board, row.length = (board.getD 0 []).length) ∧
    0 < board.length ∧
    board.flatten.length = 60 ∧
    (∀ ch ∈ board.flatten, ch = '-' ∨ ch ∈ LETTERS) ∧
    (∀ ch ∈ LETTERS, board.flatten.count ch = 0 ∨ board.flatten.count ch = 5) ∧
    0 < board.flatten.count '-'))

/-- 4-adjacency of two cells given as (row, column) pairs. -/
def adjN (p q : Nat × Nat) : Prop :=
  (p.1 = q.1 ∧ (p.2 = q.2 + 1 ∨ q.2 = p.2 + 1)) ∨
  (p.2 = q.2 ∧ (p.1 = q.1 + 1 ∨ q.1 = p.1 + 1))

instance (p q : Nat × Nat) : Decidable (adjN p q) :=
  inferInstanceAs (Decidable ((p.1 = q.1 ∧ (p.2 = q.2 + 1 ∨ q.2 = p.2 + 1)) ∨
    (p.2 = q.2 ∧ (p.1 = q.1 + 1 ∨ q.1 = p.1 + 1))))

def cellN (board : Board) (p : Nat × Nat) : Char :=
  (board.getD p.1 []).getD p.2 ' '

def openN (board : Board) (p : Nat × Nat) : Prop :=
  p.1 < board.length ∧ p.2 < (board.getD 0 []).length ∧ cellN board p = '-'

def originN (board : Board) : Nat × Nat :=
  ((find_origin board).1.toNat, (find_origin board).2.toNat)

def openStep (board : Board) (p q : Nat × Nat) : Prop :=
  openN board p ∧ openN board q ∧ adjN p q

/-- The open region: cells 4-connected to the first open cell through
empty cells. -/
def open_region (board : Board) : Set (Nat × Nat) :=
  {p | Relation.ReflTransGen (openStep board) (originN board) p}

/-- The marked cells of a (possibly partially flooded) board. -/
def markedF (b : Board) : Finset (Nat × Nat) :=
  ((Finset.range b.length) ×ˢ (Finset.range (b.getD 0 []).length)).filter
    (fun p => cellN b p = 'A')

/-- The invariant linking an intermediate flooded board `x` to the original
`board`: same shape, marked cells lie in the open region, unmarked cells
are unchanged, and the origin is marked. -/
def floodInv (board x : Board) : Prop :=
  x.length = board.length ∧
  (x.getD 0 []).length = (board.getD 0 []).length ∧
  (∀ row ∈ x, row.length = (x.getD 0 []).length) ∧
  (∀ p : Nat × Nat, p ∈ markedF x → p ∈ open_region board) ∧
  (∀ p : Nat × Nat, p.1 < x.length → p.2 < (x.getD 0 []).length →
    cellN x p ≠ 'A' → cellN x p = cellN board p) ∧
  originN board ∈ markedF x

def pocketBoard : Board :=
  [['-', '-', 'Z', '-'],
   ['-', '-', 'Z', '-'],
   ['Z', 'Z', 'Z', '-']]

/-- Edge adjacency (4-neighbourhood) of two cells. -/
def adjCoord (p q : Coord) : Prop :=
  (p.1 = q.1 ∧ (p.2 = q.2 + 1 ∨ q.2 = p.2 + 1)) ∨
  (p.2 = q.2 ∧ (p.1 = q.1 + 1 ∨ q.1 = p.1 + 1))

instance (p q : Coord) : Decidable (adjCoord p q) :=
  inferInstanceAs (Decidable ((p.1 = q.1 ∧ (p.2 = q.2 + 1 ∨ q.2 = p.2 + 1)) ∨
    (p.2 = q.2 ∧ (p.1 = q.1 + 1 ∨ q.1 = p.1 + 1))))

/-- One adjacency step staying inside the cell list `s`. -/
def stepIn (s : List Coord) (a b : Coord) : Prop :=
  a ∈ s ∧ b ∈ s ∧ adjCoord a b

/-- Numeric code of a relative cell: row offset shifted by 4 plus 9 times the
column offset; injective on the candidate cells below. -/
def codeOf (p : Coord) : Nat := (p.1 + 4 + 9 * p.2).toNat

/-- Codes of the 20 candidate relative cells of `C20I`. -/
def CN : List Nat :=
  [5, 6, 7, 8, 10, 11, 12, 13, 14, 15, 16, 20, 21, 22, 23, 24, 30, 31, 32, 40]

/-- The 20 candidate relative cells a connected 5-cell placement anchored at
its column-major-minimal cell can use besides the origin: column offset in
0..4, Manhattan distance at most 4, and on column 0 only positive rows. -/
def C20I : List Coord :=
  [(1, 0), (2, 0), (3, 0), (4, 0),
   (-3, 1), (-2, 1), (-1, 1), (0, 1), (1, 1), (2, 1), (3, 1),
   (-2, 2), (-1, 2), (0, 2), (1, 2), (2, 2),
   (-1, 3), (0, 3), (1, 3),
   (0, 4)]

/-- The origin cell together with the 20 candidates. -/
def C20IAll : List Coord := ((0 : Int), (0 : Int)) :: C20I

/-- Cells of `s` reachable from the origin in at most `n` adjacency steps
inside `s`. -/
def reachL (s : List Coord) : Nat → List Coord
  | 0 => s.filter (fun p => decide (p = ((0 : Int), (0 : Int))))
  | n + 1 =>
    let prev := reachL s n
    s.filter (fun p =>
      decide (p ∈ prev) || prev.any (fun q => decide (adjCoord q p)))

/-- Bitmask with one bit per code in the list. -/
def maskOfN (l : List Nat) : Nat := l.foldr (fun c m => m ||| (1 <<< c)) 0

/-- Bitmask of the codes of a list of cells. -/
def maskOfC (l : List Coord) : Nat := maskOfN (l.map codeOf)

/-- One breadth-first step on bitmasks: keep the cells of `s` that are in
`acc` or 4-adjacent (code distance 1 or 9) to a cell of `acc`. -/
def stepM (s acc : Nat) : Nat :=
  s &&& (acc ||| (acc <<< 1) ||| (acc >>> 1) ||| (acc <<< 9) ||| (acc >>> 9))

/-- Iterated bitmask reachability from the origin cell (code 4). -/
def reachM (s : Nat) : Nat → Nat
  | 0 => 1 <<< 4
  | k + 1 => stepM s (reachM s k)

/-- A 5-cell mask containing the origin is connected iff 4 steps reach all
of it. -/
def connM (s : Nat) : Bool := reachM s 4 == s

/-- Code-level 4-adjacency: codes differing by 1 (same column) or 9
(neighbouring columns). -/
def nbr (q c : Nat) : Bool := (q + 1 == c) || (c + 1 == q) || (q + 9 == c) || (c + 9 == q)

/-- Canonical form of a leaf's five relative cells: the sublist of
`C20IAll` consisting of the cells the leaf uses. -/
def leafKey (lf : FNode) : List Coord :=
  C20IAll.filter (fun c => decide (c ∈ lf.lineage ++ [lf.coord]))

/-- Bitmasks of the cell sets of the 63 leaves of the finished tree. -/
def leafMasks : List Nat := grow_tree.leaves.map (fun lf => maskOfC (leafKey lf))

/-- Per-subset check: a connected candidate subset (joined with the origin)
appears among the leaf masks. -/
def C1predM (l : List Nat) : Bool :=
  !connM (maskOfN (4 :: l)) || leafMasks.contains (maskOfN (4 :: l))

/-- All sublists of the given length, in order. -/
def combos {α : Type} : Nat → List α → List (List α)
  | 0, _ => [[]]
  | _ + 1, [] => []
  | n + 1, a :: t => ((combos n t).map (fun l => a :: l)) ++ combos (n + 1) t

/-- Conjunction of a Boolean predicate over a list of subsets. -/
def allGo {α : Type} (p : List α → Bool) : List (List α) → Bool
  | [] => true
  | l :: rest => if p l then allGo p rest else false

/-- Checks `C1predM` on every 4-element sublist of `L`, chunked by the
first chosen element to keep each traversal short. -/
def chunkM : List Nat → Bool
  | [] => true
  | a :: t => allGo (fun l => C1predM (a :: l)) (combos 3 t) && chunkM t

/-- The finite completeness check: every connected 4-subset of the
candidate codes, together with the origin, is some leaf's cell set. -/
def C1check : Bool := chunkM CN

/-- A 5x1 board of open cells, used as a concrete completeness input. -/
def wBoardC1 : Board := [['-'], ['-'], ['-'], ['-'], ['-']]

/-- The vertical I-pentomino placed at the origin of `wBoardC1`. -/
def wSC1 : List Coord := [((0 : Int), (0 : Int)), (1, 0), (2, 0), (3, 0), (4, 0)]

instance (board : Board) (p : Coord) : Decidable (inBounds board p) :=
  inferInstanceAs (Decidable (0 ≤ p.1 ∧ p.1 < (board.length : Int) ∧ 0 ≤ p.2 ∧
    p.2 < (((board.getD 0 []).length : Nat) : Int)))

/-! ## Theorems -/

theorem is_bad_false_iff (origin coord : Coord) (board : Board) :
    is_bad origin coord board = false ↔
      inBounds board (origin.1 + coord.1, origin.2 + coord.2) ∧
      cellAt board (origin.1 + coord.1, origin.2 + coord.2) = '-' := by
  unfold is_bad inBounds cellAt
  dsimp only
  split_ifs with h1 h2 h3 h4 h5 <;> simp_all

/-- `min?` of a nonempty list of equal values. -/
theorem min?_const {l : List Nat} {w : Nat} (hne : l ≠ [])
    (hall : ∀ x ∈ l, x = w) : l.min? = some w := by
  induction l with
  | nil => exact absurd rfl hne
  | cons a l ih =>
    cases l with
    | nil => simp [List.min?, hall a (by simp)]
    | cons b t =>
      rw [List.min?_cons]
      rw [ih (by simp) (fun x hx => hall x (List.mem_cons_of_mem _ hx))]
      simp [hall a (by simp)]

theorem flatten_getD_uniform {α} (d : α) (k : Nat) :
    ∀ (L : List (List α)) (n : Nat), (∀ row ∈ L, row.length = k) →
      n < L.length * k →
      L.flatten.getD n d = (L.getD (n / k) []).getD (n % k) d := by
  intro L
  induction L with
  | nil => intro n _ h; simp at h
  | cons row L ih =>
    intro n hrows hn
    have hrow : row.length = k := hrows row (by simp)
    have hgd : forall (l : List α) (m : Nat), l.getD m d = (l[m]?).getD d :=
      fun l m => List.getD_eq_getElem?_getD l m d
    rw [List.flatten_cons]
    by_cases h : n < k
    · have h0 : n / k = 0 := Nat.div_eq_of_lt h
      have h1 : n % k = n := Nat.mod_eq_of_lt h
      have hlt : n < row.length := by omega
      rw [h0, h1, List.getD_cons_zero, hgd, hgd,
        List.getElem?_append_left hlt]
    · have hk : 0 < k := by
        rcases Nat.eq_zero_or_pos k with rfl | hk
        · rw [Nat.mul_zero] at hn; omega
        · exact hk
      have hnk : n - k < L.length * k := by
        rw [List.length_cons] at hn
        have : (L.length + 1) * k = L.length * k + k := by ring
        omega
      have hy : n - k + k = n := by omega
      have hdiv : n / k = (n - k) / k + 1 := by
        conv_lhs => rw [← hy]
        rw [Nat.add_div_right _ hk]
      have hmod : n % k = (n - k) % k := by
        conv_lhs => rw [← hy]
        rw [Nat.add_mod_right]
      rw [hdiv, hmod, List.getD_cons_succ]
      rw [← ih (n - k) (fun r hr => hrows r (List.mem_cons_of_mem _ hr)) hnk]
      rw [hgd, hgd, List.getElem?_append_right (by omega), hrow]


theorem pyZipStar_min {board : Board} {w : Nat} (hb : board ≠ [])
    (hrect : ∀ row ∈ board, row.length = w) :
    ((board.map List.length).min?).getD 0 = w := by
  rw [min?_const (by simpa using hb)
    (fun x hx => by
      obtain ⟨row, hrow, rfl⟩ := List.mem_map.mp hx
      exact hrect row hrow)]
  rfl

theorem pyZipStar_length {board : Board} {w : Nat} (hb : board ≠ [])
    (hrect : ∀ row ∈ board, row.length = w) :
    (pyZipStar board).length = w := by
  unfold pyZipStar
  rw [pyZipStar_min hb hrect]
  simp

theorem pyZipStar_getD {board : Board} {w : Nat} (hb : board ≠ [])
    (hrect : ∀ row ∈ board, row.length = w) {c : Nat} (hc : c < w) :
    (pyZipStar board).getD c [] = board.map (fun row => row.getD c ' ') := by
  unfold pyZipStar
  rw [pyZipStar_min hb hrect]
  rw [List.getD_eq_getElem _ _ (by simpa using hc)]
  rw [List.getElem_map, List.getElem_range]

theorem pyZipStar_rows {board : Board} {w : Nat} (hb : board ≠ [])
    (hrect : ∀ row ∈ board, row.length = w) :
    ∀ row ∈ pyZipStar board, row.length = board.length := by
  intro row hrow
  unfold pyZipStar at hrow
  rw [List.mem_map] at hrow
  obtain ⟨c, _, rfl⟩ := hrow
  simp

theorem find_origin_spec (board : Board)
    (hrect : ∀ row ∈ board, row.length = (board.getD 0 []).length)
    (hh : 0 < board.length) (hdash : '-' ∈ board.flatten) :
    inBounds board (find_origin board) ∧ cellAt board (find_origin board) = '-' := by
  have hb : board ≠ [] := List.length_pos.mp hh
  obtain ⟨row, hrowmem, hcrow⟩ := List.mem_flatten.mp hdash
  obtain ⟨c, hc, hcell⟩ := List.mem_iff_getElem.mp hcrow
  have hrw : row.length = (board.getD 0 []).length := hrect row hrowmem
  have hwpos : 0 < (board.getD 0 []).length := by omega
  have hmem : '-' ∈ (pyZipStar board).flatten := by
    rw [List.mem_flatten]
    refine ⟨board.map (fun r => r.getD c ' '), ?_, ?_⟩
    · rw [← pyZipStar_getD hb hrect (by omega : c < (board.getD 0 []).length)]
      rw [List.getD_eq_getElem _ _ (by rw [pyZipStar_length hb hrect]; omega)]
      exact List.getElem_mem _
    · rw [List.mem_map]
      exact ⟨row, hrowmem, by rw [List.getD_eq_getElem _ _ (by omega), hcell]⟩
  have hflen : (pyZipStar board).flatten.length =
      (board.getD 0 []).length * board.length := by
    rw [List.length_flatten]
    have heq : (pyZipStar board).map List.length =
        List.replicate (board.getD 0 []).length board.length := by
      rw [List.eq_replicate_iff]
      constructor
      · rw [List.length_map, pyZipStar_length hb hrect]
      · intro b hb'
        obtain ⟨r, hr, rfl⟩ := List.mem_map.mp hb'
        exact pyZipStar_rows hb hrect r hr
    rw [heq, List.sum_replicate, smul_eq_mul]
  have hnum : (pyZipStar board).flatten.indexOf '-' <
      (board.getD 0 []).length * board.length := by
    rw [← hflen]
    exact List.indexOf_lt_length.mpr hmem
  set number := (pyZipStar board).flatten.indexOf '-' with hnum_def
  have hmod : number % board.length < board.length := Nat.mod_lt _ hh
  have hdiv : number / board.length < (board.getD 0 []).length := by
    rw [Nat.div_lt_iff_lt_mul hh]
    omega
  have horig : find_origin board =
      (((number % board.length : Nat) : Int),
       ((number / board.length : Nat) : Int)) := rfl
  constructor
  · rw [horig]
    unfold inBounds
    dsimp only
    refine ⟨by exact_mod_cast Nat.zero_le _, ?_,
      by exact_mod_cast Nat.zero_le _, ?_⟩
    · exact_mod_cast hmod
    · exact_mod_cast hdiv
  · rw [horig]
    unfold cellAt
    dsimp only
    simp only [Int.toNat_ofNat]
    have hcell2 : (pyZipStar board).flatten.getD number ' ' = '-' := by
      rw [List.getD_eq_getElem _ _ (by omega)]
      exact List.getElem_indexOf (by omega)
    rw [flatten_getD_uniform ' ' board.length (pyZipStar board) number
      (pyZipStar_rows hb hrect) (by rw [pyZipStar_length hb hrect]; omega)] at hcell2
    rw [pyZipStar_getD hb hrect hdiv] at hcell2
    rw [List.getD_eq_getElem _ _ (by simpa using hmod), List.getElem_map] at hcell2
    rw [← hcell2]
    rw [List.getD_eq_getElem _ _ hmod]

/-- Length of the grid returned by `set_points_in_board`. -/
theorem set_points_length (points : List Coord) (board : Board) (value : Char) :
    (set_points_in_board points board value).length = board.length := by
  simp [set_points_in_board]

/-- Row `r` of the grid returned by `set_points_in_board`. -/
theorem set_points_getD_row (points : List Coord) (board : Board) (value : Char)
    (r : Nat) (hr : r < board.length) :
    (set_points_in_board points board value).getD r [] =
      (board.getD r []).enum.map (fun col =>
        if ((r : Int), (col.1 : Int)) ∈ points ∧ col.2 = '-' then value
        else col.2) := by
  have hr' : r < (set_points_in_board points board value).length := by
    rw [set_points_length]; exact hr
  rw [List.getD_eq_getElem _ _ hr']
  simp only [set_points_in_board]
  rw [List.getElem_map, List.getElem_enum, List.getD_eq_getElem _ _ hr]

/-- Row lengths are preserved by `set_points_in_board`. -/
theorem set_points_row_length (points : List Coord) (board : Board)
    (value : Char) (r : Nat) :
    ((set_points_in_board points board value).getD r []).length =
      (board.getD r []).length := by
  by_cases hr : r < board.length
  · rw [set_points_getD_row points board value r hr]
    simp
  · rw [List.getD_eq_default, List.getD_eq_default]
    · omega
    · rw [set_points_length]; omega

/-- The cell values of the grid returned by `set_points_in_board`: a listed
cell holding `'-'` becomes `value`, every other cell is unchanged. -/
theorem set_points_getD (points : List Coord) (board : Board) (value : Char)
    (r c : Nat) (hr : r < board.length) (hc : c < (board.getD r []).length) :
    ((set_points_in_board points board value).getD r []).getD c ' ' =
      (if ((r : Int), (c : Int)) ∈ points ∧ (board.getD r []).getD c ' ' = '-'
       then value else (board.getD r []).getD c ' ') := by
  rw [set_points_getD_row points board value r hr]
  have hc' : c < ((board.getD r []).enum.map (fun col =>
      if ((r : Int), (col.1 : Int)) ∈ points ∧ col.2 = '-' then value
      else col.2)).length := by simpa using hc
  rw [List.getD_eq_getElem _ _ hc', List.getElem_map, List.getElem_enum,
    List.getD_eq_getElem _ _ hc]

/-- **C10.** Frame property of `set_points_in_board`: the returned grid has
the same shape as the input, agrees with it at every cell whose coordinates
are not listed and at every listed cell not currently `'-'`, and holds
`value` at every listed cell currently `'-'` — an occupied cell is never
overwritten even if listed. -/
theorem set_points_in_board_frame (points : List Coord) (board : Board)
    (value : Char) :
    (set_points_in_board points board value).length = board.length ∧
    (∀ r : Nat, ((set_points_in_board points board value).getD r []).length =
      (board.getD r []).length) ∧
    (∀ r c : Nat, r < board.length → c < (board.getD r []).length →
      ((set_points_in_board points board value).getD r []).getD c ' ' =
        (if ((r : Int), (c : Int)) ∈ points ∧ (board.getD r []).getD c ' ' = '-'
         then value else (board.getD r []).getD c ' ')) :=
  ⟨set_points_length points board value,
   set_points_row_length points board value,
   set_points_getD points board value⟩

/-- Witness for C10 at a concrete input: the listed empty cell `(0,0)` of
the board `[['-', 'Z']]` is set, while the listed occupied cell `(0,1)` is
untouched. -/
theorem set_points_in_board_frame_witness :
    ((0 : Nat) < ([['-', 'Z']] : Board).length ∧
      (0 : Nat) < (([['-', 'Z']] : Board).getD 0 []).length ∧
      (1 : Nat) < (([['-', 'Z']] : Board).getD 0 []).length) ∧
    ((set_points_in_board [((0 : Int), (0 : Int)), (0, 1)] [['-', 'Z']] 'Q').getD
        0 []).getD 0 ' ' =
      (if ((0 : Int), (0 : Int)) ∈ [((0 : Int), (0 : Int)), (0, 1)] ∧
          (([['-', 'Z']] : Board).getD 0 []).getD 0 ' ' = '-'
       then 'Q' else (([['-', 'Z']] : Board).getD 0 []).getD 0 ' ') ∧
    ((set_points_in_board [((0 : Int), (0 : Int)), (0, 1)] [['-', 'Z']] 'Q').getD
        0 []).getD 1 ' ' =
      (if ((0 : Int), (1 : Int)) ∈ [((0 : Int), (0 : Int)), (0, 1)] ∧
          (([['-', 'Z']] : Board).getD 0 []).getD 1 ' ' = '-'
       then 'Q' else (([['-', 'Z']] : Board).getD 0 []).getD 1 ' ') :=
  ⟨⟨by decide, by decide, by decide⟩,
   (set_points_in_board_frame [((0 : Int), (0 : Int)), (0, 1)] [['-', 'Z']]
      'Q').2.2 0 0 (by decide) (by decide),
   (set_points_in_board_frame [((0 : Int), (0 : Int)), (0, 1)] [['-', 'Z']]
      'Q').2.2 0 1 (by decide) (by decide)⟩

/-- Membership in the per-level filter `f_gnodes`: exactly the indices of
nodes whose parent index is admissible and whose cell is not bad. -/
theorem mem_f_gnodes {tree : PentTree} {level : Nat} {good_p : List Int}
    {origin : Coord} {board : Board} {k : Int} :
    k ∈ f_gnodes tree level good_p origin board ↔
      ∃ (n : Nat) (nd : RNode), (tlevel tree level)[n]? = some nd ∧
        (n : Int) = k ∧ nd.pindx ∈ good_p ∧
        is_bad origin nd.coord board = false := by
  unfold f_gnodes
  simp only [List.mem_map, List.mem_filter]
  constructor
  · rintro ⟨⟨n, nd⟩, ⟨hmem, hpred⟩, rfl⟩
    rw [List.mk_mem_enum_iff_getElem?] at hmem
    simp only [Bool.and_eq_true, decide_eq_true_eq, Bool.not_eq_true'] at hpred
    exact ⟨n, nd, hmem, rfl, hpred.1, hpred.2⟩
  · rintro ⟨n, nd, hget, rfl, hp, hbad⟩
    refine ⟨(n, nd), ⟨List.mk_mem_enum_iff_getElem?.mpr hget, ?_⟩, rfl⟩
    simp only [Bool.and_eq_true, decide_eq_true_eq, Bool.not_eq_true']
    exact ⟨hp, hbad⟩

/-- `find_tiles` unfolded: four `f_gnodes` passes over levels 1 to 4. -/
theorem find_tiles_eq (tree : PentTree) (board : Board) :
    find_tiles tree board =
      f_gnodes tree 4 (f_gnodes tree 3 (f_gnodes tree 2 (f_gnodes tree 1 [0]
        (find_origin board) board) (find_origin board) board)
        (find_origin board) board) (find_origin board) board := rfl

/-- Level 4 of a tree, as the traversal sees it. -/
theorem tlevel_four (tree : PentTree) :
    tlevel tree 4 = tree.leaves.map FNode.toRNode := rfl

/-- Level 0 of the finished tree is the single root node. -/
theorem tree_root : tlevel grow_tree 0 = [⟨(0, 0), [], -1⟩] := by decide

/-- Parent links of the finished tree: every node of levels 1 to 4 has an
in-range parent index into the previous level, and its lineage is the
parent's lineage extended by the parent's coordinate. -/
theorem tree_parent_links : ∀ lv ∈ [1, 2, 3, 4], ∀ p ∈ (tlevel grow_tree lv).enum,
    0 ≤ p.2.pindx ∧ p.2.pindx.toNat < (tlevel grow_tree (lv - 1)).length ∧
    p.2.lineage = glin ((tlevel grow_tree (lv - 1)).getD p.2.pindx.toNat dfltNode) := by
  decide

/-- The five relative cells of every leaf are pairwise distinct. -/
theorem tree_leaf_nodup : ∀ lf ∈ grow_tree.leaves,
    (lf.lineage ++ [lf.coord]).Nodup := by decide


/-- `getD` through a successful `getElem?`. -/
theorem getD_of_getElem? {α} {l : List α} {n : Nat} {x : α} (d : α)
    (h : l[n]? = some x) : l.getD n d = x := by
  rw [List.getD_eq_getElem?_getD, h]
  rfl

/-- `add_fig_brd` is the translation of the leaf's five relative cells. -/
theorem add_fig_brd_eq (figure : FNode) (origin : Coord) :
    add_fig_brd figure origin =
      (figure.lineage ++ [figure.coord]).map
        (fun p => (origin.1 + p.1, origin.2 + p.2)) := by
  simp [add_fig_brd]

/-- Translating by the origin is injective. -/
theorem shift_injective (origin : Coord) :
    Function.Injective (fun p : Coord => (origin.1 + p.1, origin.2 + p.2)) := by
  intro a b h
  simp only [Prod.mk.injEq] at h
  exact Prod.ext (by omega) (by omega)

/-- Core soundness of `find_tiles`, shared by several results below. -/
theorem find_tiles_sound_core (board : Board)
    (hrect : ∀ row ∈ board, row.length = (board.getD 0 []).length)
    (hh : 0 < board.length) (hdash : '-' ∈ board.flatten) :
    ∀ f ∈ find_tiles grow_tree board,
      0 ≤ f ∧ f.toNat < grow_tree.leaves.length ∧
      (add_fig_brd (leafNode grow_tree f) (find_origin board)).length = 5 ∧
      (add_fig_brd (leafNode grow_tree f) (find_origin board)).Nodup ∧
      (∀ p ∈ add_fig_brd (leafNode grow_tree f) (find_origin board),
        inBounds board p ∧ cellAt board p = '-') ∧
      (∀ p ∈ add_fig_brd (leafNode grow_tree f) (find_origin board),
        cellAt (set_points_in_board
          (add_fig_brd (leafNode grow_tree f) (find_origin board)) board
          (leafFig grow_tree f)) p = leafFig grow_tree f) ∧
      (∀ q : Coord, inBounds board q →
        q ∉ add_fig_brd (leafNode grow_tree f) (find_origin board) →
        cellAt (set_points_in_board
          (add_fig_brd (leafNode grow_tree f) (find_origin board)) board
          (leafFig grow_tree f)) q = cellAt board q) := by
  intro f hf
  have horigin := find_origin_spec board hrect hh hdash
  rw [find_tiles_eq, mem_f_gnodes] at hf
  obtain ⟨n4, nd4, hget4, hk4, hp4, hbad4⟩ := hf
  rw [mem_f_gnodes] at hp4
  obtain ⟨n3, nd3, hget3, hk3, hp3, hbad3⟩ := hp4
  rw [mem_f_gnodes] at hp3
  obtain ⟨n2, nd2, hget2, hk2, hp2, hbad2⟩ := hp3
  rw [mem_f_gnodes] at hp2
  obtain ⟨n1, nd1, hget1, hk1, hp1, hbad1⟩ := hp2
  have hp1' : nd1.pindx = 0 := by simpa using hp1
  have h4 := tree_parent_links 4 (by norm_num) (n4, nd4)
    (List.mk_mem_enum_iff_getElem?.mpr hget4)
  have h3 := tree_parent_links 3 (by norm_num) (n3, nd3)
    (List.mk_mem_enum_iff_getElem?.mpr hget3)
  have h2 := tree_parent_links 2 (by norm_num) (n2, nd2)
    (List.mk_mem_enum_iff_getElem?.mpr hget2)
  have h1 := tree_parent_links 1 (by norm_num) (n1, nd1)
    (List.mk_mem_enum_iff_getElem?.mpr hget1)
  -- lineage chain
  have hl1 : nd1.lineage = [((0 : Int), (0 : Int))] := by
    have hx := h1.2.2
    rw [hp1'] at hx
    rw [hx]
    rw [tree_root]
    rfl
  have ht3 : nd4.pindx.toNat = n3 := by rw [← hk3]; simp
  have ht2 : nd3.pindx.toNat = n2 := by rw [← hk2]; simp
  have ht1 : nd2.pindx.toNat = n1 := by rw [← hk1]; simp
  have hl4 : nd4.lineage = glin nd3 := by
    have hx := h4.2.2
    rw [ht3, getD_of_getElem? dfltNode hget3] at hx
    exact hx
  have hl3 : nd3.lineage = glin nd2 := by
    have hx := h3.2.2
    rw [ht2, getD_of_getElem? dfltNode hget2] at hx
    exact hx
  have hl2 : nd2.lineage = glin nd1 := by
    have hx := h2.2.2
    rw [ht1, getD_of_getElem? dfltNode hget1] at hx
    exact hx
  have hrel : nd4.lineage ++ [nd4.coord] =
      [((0 : Int), (0 : Int)), nd1.coord, nd2.coord, nd3.coord, nd4.coord] := by
    rw [hl4, glin, hl3, glin, hl2, glin, hl1]
    rfl
  -- the leaf node
  rw [tlevel_four, List.getElem?_map] at hget4
  obtain ⟨lf, hlf, hlfnd⟩ := Option.map_eq_some'.mp hget4
  have hfval : f.toNat = n4 := by rw [← hk4]; simp
  have hf0 : 0 ≤ f := by rw [← hk4]; exact Int.ofNat_nonneg n4
  have hln : leafNode grow_tree f = lf := by
    unfold leafNode
    rw [hfval]
    exact getD_of_getElem? dfltFNode hlf
  have hlfl : lf.lineage = nd4.lineage := congrArg RNode.lineage hlfnd
  have hlfc : lf.coord = nd4.coord := congrArg RNode.coord hlfnd
  have hn4len : n4 < grow_tree.leaves.length := by
    have := List.getElem?_eq_some_iff.mp hlf
    exact this.1
  -- the five cells
  have hcells : add_fig_brd (leafNode grow_tree f) (find_origin board) =
      [((0 : Int), (0 : Int)), nd1.coord, nd2.coord, nd3.coord, nd4.coord].map
        (fun p => ((find_origin board).1 + p.1, (find_origin board).2 + p.2)) := by
    rw [hln, add_fig_brd_eq, hlfl, hlfc, hrel]
  -- each relative cell is on-board and open
  have hok : ∀ p ∈ add_fig_brd (leafNode grow_tree f) (find_origin board),
      inBounds board p ∧ cellAt board p = '-' := by
    rw [hcells]
    intro p hp
    rw [List.mem_map] at hp
    obtain ⟨r, hr, rfl⟩ := hp
    simp only [List.mem_cons, List.not_mem_nil, or_false] at hr
    rcases hr with rfl | rfl | rfl | rfl | rfl
    · simpa using horigin
    · exact (is_bad_false_iff _ _ _).mp hbad1
    · exact (is_bad_false_iff _ _ _).mp hbad2
    · exact (is_bad_false_iff _ _ _).mp hbad3
    · exact (is_bad_false_iff _ _ _).mp hbad4
  refine ⟨hf0, by rw [hfval]; exact hn4len, by rw [hcells]; rfl, ?_, hok, ?_, ?_⟩
  · -- Nodup
    rw [hcells]
    apply List.Nodup.map (shift_injective (find_origin board))
    have hnd := tree_leaf_nodup lf (List.getElem?_mem hlf)
    rw [hlfl, hlfc, hrel] at hnd
    exact hnd
  · -- listed cells become the figure letter
    intro p hp
    obtain ⟨⟨hp1, hp2, hp3, hp4'⟩, hopen⟩ := hok p hp
    have hpeq : ((p.1.toNat : Int), (p.2.toNat : Int)) = p := by
      rw [Int.toNat_of_nonneg hp1, Int.toNat_of_nonneg hp3]
    have hcw : p.2.toNat < (board.getD p.1.toNat []).length := by
      rw [hrect (board.getD p.1.toNat []) (by
        rw [List.getD_eq_getElem _ _ (by omega)]
        exact List.getElem_mem _)]
      omega
    have := set_points_getD
      (add_fig_brd (leafNode grow_tree f) (find_origin board)) board
      (leafFig grow_tree f) p.1.toNat p.2.toNat (by omega) hcw
    unfold cellAt
    rw [this, if_pos]
    constructor
    · rw [hpeq]; exact hp
    · have : cellAt board p = '-' := hopen
      unfold cellAt at this
      exact this
  · -- unlisted cells unchanged
    intro q hq hnq
    obtain ⟨hq1, hq2, hq3, hq4⟩ := hq
    have hqeq : ((q.1.toNat : Int), (q.2.toNat : Int)) = q := by
      rw [Int.toNat_of_nonneg hq1, Int.toNat_of_nonneg hq3]
    have hcw : q.2.toNat < (board.getD q.1.toNat []).length := by
      rw [hrect (board.getD q.1.toNat []) (by
        rw [List.getD_eq_getElem _ _ (by omega)]
        exact List.getElem_mem _)]
      omega
    have := set_points_getD
      (add_fig_brd (leafNode grow_tree f) (find_origin board)) board
      (leafFig grow_tree f) q.1.toNat q.2.toNat (by omega) hcw
    unfold cellAt
    rw [this, if_neg]
    intro hcon
    apply hnq
    rw [← hqeq]
    exact hcon.1

/-- **C2.** Soundness of placement enumeration: on a board with at least
one empty cell, every leaf index `f` returned by `find_tiles` (level 1,
admissible-parent set `{0}`) is an in-range leaf index denoting 5 absolute
cells (origin plus each lineage coordinate, and origin plus the leaf
coordinate) that are pairwise distinct, within the board bounds, and
currently `'-'`; consequently the `set_points_in_board` call writes the
leaf's figure letter into exactly those 5 cells and changes nothing
else. -/
theorem find_tiles_sound (board : Board)
    (hrect : ∀ row ∈ board, row.length = (board.getD 0 []).length)
    (hh : 0 < board.length) (hdash : '-' ∈ board.flatten) :
    ∀ f ∈ find_tiles grow_tree board,
      0 ≤ f ∧ f.toNat < grow_tree.leaves.length ∧
      (add_fig_brd (leafNode grow_tree f) (find_origin board)).length = 5 ∧
      (add_fig_brd (leafNode grow_tree f) (find_origin board)).Nodup ∧
      (∀ p ∈ add_fig_brd (leafNode grow_tree f) (find_origin board),
        inBounds board p ∧ cellAt board p = '-') ∧
      (∀ p ∈ add_fig_brd (leafNode grow_tree f) (find_origin board),
        cellAt (set_points_in_board
          (add_fig_brd (leafNode grow_tree f) (find_origin board)) board
          (leafFig grow_tree f)) p = leafFig grow_tree f) ∧
      (∀ q : Coord, inBounds board q →
        q ∉ add_fig_brd (leafNode grow_tree f) (find_origin board) →
        cellAt (set_points_in_board
          (add_fig_brd (leafNode grow_tree f) (find_origin board)) board
          (leafFig grow_tree f)) q = cellAt board q) :=
  find_tiles_sound_core board hrect hh hdash

/-- Witness for C2 at a concrete input: leaf index 0 is returned by
`find_tiles` on the first initial 6x10 board, and its five cells are
distinct. -/
theorem find_tiles_sound_witness :
    ((∀ row ∈ (get_boards.getD 3 ("", [])).2.getD 0 [], row.length =
        (((get_boards.getD 3 ("", [])).2.getD 0 []).getD 0 []).length) ∧
      0 < ((get_boards.getD 3 ("", [])).2.getD 0 []).length ∧
      '-' ∈ ((get_boards.getD 3 ("", [])).2.getD 0 []).flatten ∧
      (0 : Int) ∈ find_tiles grow_tree ((get_boards.getD 3 ("", [])).2.getD 0 [])) ∧
    (add_fig_brd (leafNode grow_tree 0)
      (find_origin ((get_boards.getD 3 ("", [])).2.getD 0 []))).length = 5 ∧
    (add_fig_brd (leafNode grow_tree 0)
      (find_origin ((get_boards.getD 3 ("", [])).2.getD 0 []))).Nodup :=
  ⟨⟨by decide, by decide, by decide, by decide⟩,
   ((find_tiles_sound ((get_boards.getD 3 ("", [])).2.getD 0 [])
      (by decide) (by decide) (by decide) 0 (by decide)).2.2.1),
   ((find_tiles_sound ((get_boards.getD 3 ("", [])).2.getD 0 [])
      (by decide) (by decide) (by decide) 0 (by decide)).2.2.2.1)⟩

/-- Boards with equal shape and equal cells are equal. -/
theorem board_ext {b1 b2 : Board} (hlen : b1.length = b2.length)
    (hrows : ∀ r : Nat, (b1.getD r []).length = (b2.getD r []).length)
    (hcell : ∀ r c : Nat, r < b1.length → c < (b1.getD r []).length →
      (b1.getD r []).getD c ' ' = (b2.getD r []).getD c ' ') : b1 = b2 := by
  apply List.ext_getElem hlen
  intro r h1 h2
  apply List.ext_getElem
  · have h := hrows r
    rwa [List.getD_eq_getElem _ _ h1, List.getD_eq_getElem _ _ h2] at h
  · intro c hc1 hc2
    have h := hcell r c h1 (by rwa [List.getD_eq_getElem _ _ h1])
    rwa [List.getD_eq_getElem _ _ h1, List.getD_eq_getElem _ _ h2,
      List.getD_eq_getElem _ _ hc1, List.getD_eq_getElem _ _ hc2] at h

theorem set_points_nil (board : Board) (value : Char) :
    set_points_in_board [] board value = board := by
  unfold set_points_in_board
  have h : ∀ row : List Char,
      (row.enum.map (fun col =>
        if ((0 : Int), (col.1 : Int)) ∈ ([] : List Coord) ∧ col.2 = '-'
        then value else col.2)) = row := by
    intro row
    simp
  calc board.enum.map (fun row => row.2.enum.map (fun col =>
        if ((row.1 : Int), (col.1 : Int)) ∈ ([] : List Coord) ∧ col.2 = '-'
        then value else col.2))
      = board.enum.map (fun row => row.2) := by
        apply List.map_congr_left
        intro a _
        simp
    _ = board := by rw [List.enum_map_snd]

theorem set_points_cons (p : Coord) (points : List Coord) (board : Board)
    (value : Char) :
    set_points_in_board (p :: points) board value =
      set_points_in_board points (set_points_in_board [p] board value) value := by
  apply board_ext
  · rw [set_points_length, set_points_length, set_points_length]
  · intro r
    rw [set_points_row_length, set_points_row_length, set_points_row_length]
  · intro r c hr hc
    rw [set_points_length] at hr
    rw [set_points_row_length] at hc
    have hr1 : r < (set_points_in_board [p] board value).length := by
      rw [set_points_length]; exact hr
    have hc1 : c < ((set_points_in_board [p] board value).getD r []).length := by
      rw [set_points_row_length]; exact hc
    rw [set_points_getD _ _ _ _ _ hr hc,
      set_points_getD _ _ _ _ _ hr1 hc1,
      set_points_getD _ _ _ _ _ hr hc]
    by_cases h3 : (board.getD r []).getD c ' ' = '-' <;>
    by_cases h4 : value = '-' <;>
    by_cases h1 : ((r : Int), (c : Int)) = p <;>
    by_cases h2 : ((r : Int), (c : Int)) ∈ points <;>
    simp_all [List.mem_cons]

theorem set_points_single (r c : Nat) (board : Board) (value : Char)
    (hr : r < board.length) (hc : c < (board.getD r []).length) :
    set_points_in_board [((r : Int), (c : Int))] board value =
      board.set r ((board.getD r []).set c
        (if (board.getD r []).getD c ' ' = '-' then value
         else (board.getD r []).getD c ' ')) := by
  set x := (if (board.getD r []).getD c ' ' = '-' then value
      else (board.getD r []).getD c ' ') with hxdef
  apply board_ext
  · rw [set_points_length, List.length_set]
  · intro r'
    rw [set_points_row_length]
    by_cases hlt : r' < board.length
    · rw [List.getD_eq_getElem (board.set _ _) _ (by simpa using hlt),
        List.getElem_set, List.getD_eq_getElem board _ hlt]
      by_cases hreq : r = r'
      · rw [if_pos hreq, List.length_set]
        subst hreq
        rw [List.getD_eq_getElem board _ hlt]
      · rw [if_neg hreq]
    · rw [List.getD_eq_default _ _ (by omega),
        List.getD_eq_default _ _ (by rw [List.length_set]; omega)]
  · intro r' c' hr' hc'
    rw [set_points_length] at hr'
    rw [set_points_row_length] at hc'
    rw [set_points_getD _ _ _ _ _ hr' hc']
    have hrow : (board.set r ((board.getD r []).set c x)).getD r' [] =
        if r = r' then (board.getD r []).set c x else board.getD r' [] := by
      rw [List.getD_eq_getElem (board.set _ _) _ (by simpa using hr'),
        List.getElem_set]
      by_cases h : r = r'
      · rw [if_pos h, if_pos h]
      · rw [if_neg h, if_neg h, List.getD_eq_getElem board _ hr']
    rw [hrow]
    by_cases hreq : r = r'
    · subst hreq
      rw [if_pos rfl]
      have hgset : ((board.getD r []).set c x).getD c' ' ' =
          if c = c' then x else (board.getD r []).getD c' ' ' := by
        rw [List.getD_eq_getElem _ _ (by rw [List.length_set]; exact hc'),
          List.getElem_set]
        by_cases h : c = c'
        · rw [if_pos h, if_pos h]
        · rw [if_neg h, if_neg h, List.getD_eq_getElem _ _ hc']
      rw [hgset]
      by_cases hceq : c = c'
      · subst hceq
        rw [if_pos rfl, hxdef]
        by_cases hdash : (board.getD r []).getD c ' ' = '-'
        · rw [if_pos ⟨by simp, hdash⟩, if_pos hdash]
        · rw [if_neg (fun hcon => hdash hcon.2), if_neg hdash]
      · rw [if_neg hceq]
        have hnm : ¬(((r : Int), (c' : Int)) ∈ [((r : Int), (c : Int))]) := by
          simp only [List.mem_singleton, Prod.mk.injEq, Nat.cast_inj]
          intro h
          exact hceq h.2.symm
        rw [if_neg (fun hcon => hnm hcon.1)]
    · rw [if_neg hreq]
      have hnm : ¬(((r' : Int), (c' : Int)) ∈ [((r : Int), (c : Int))]) := by
        simp only [List.mem_singleton, Prod.mk.injEq, Nat.cast_inj]
        intro h
        exact hreq h.1.symm
      rw [if_neg (fun hcon => hnm hcon.1)]

theorem count_flatten_set (board : Board) (r : Nat) (row' : List Char)
    (h : r < board.length) (ch : Char) :
    ((board.set r row').flatten).count ch + (board.getD r []).count ch =
      board.flatten.count ch + row'.count ch := by
  rw [List.set_eq_take_cons_drop _ h]
  conv_rhs => rw [← List.take_append_drop r board, List.drop_eq_getElem_cons h]
  rw [List.flatten_append, List.flatten_cons, List.flatten_append,
    List.flatten_cons, List.count_append, List.count_append,
    List.count_append, List.count_append, List.getD_eq_getElem _ _ h]
  omega

theorem count_row_set (row : List Char) (c : Nat) (v ch : Char)
    (hc : c < row.length) :
    (row.set c v).count ch + (if row.getD c ' ' = ch then 1 else 0) =
      row.count ch + (if v = ch then 1 else 0) := by
  rw [List.count_set _ _ _ _ hc, List.getD_eq_getElem _ _ hc]
  simp only [beq_iff_eq]
  have hcnt : row[c] = ch → 1 ≤ row.count ch := fun hx =>
    List.count_pos_iff.mpr (hx ▸ List.getElem_mem _)
  rcases eq_or_ne (row[c]) ch with h1 | h1 <;>
    rcases eq_or_ne v ch with h2 | h2
  · rw [if_pos h1, if_pos h2]
    have := hcnt h1
    omega
  · rw [if_pos h1, if_neg h2]
    have := hcnt h1
    omega
  · rw [if_neg h1, if_pos h2]
    omega
  · rw [if_neg h1, if_neg h2]
    omega

theorem count_set_points_single (r c : Nat) (board : Board) (value ch : Char)
    (hr : r < board.length) (hc : c < (board.getD r []).length)
    (hdash : (board.getD r []).getD c ' ' = '-') :
    (set_points_in_board [((r : Int), (c : Int))] board value).flatten.count ch
        + (if '-' = ch then 1 else 0) =
      board.flatten.count ch + (if value = ch then 1 else 0) := by
  rw [set_points_single r c board value hr hc, if_pos hdash]
  have h1 := count_flatten_set board r ((board.getD r []).set c value) hr ch
  have h2 := count_row_set (board.getD r []) c value ch hc
  rw [hdash] at h2
  omega

theorem set_points_flatten_chars (points : List Coord) (board : Board)
    (value : Char) :
    ∀ ch ∈ (set_points_in_board points board value).flatten,
      ch = value ∨ ch ∈ board.flatten := by
  intro ch hch
  rw [List.mem_flatten] at hch
  obtain ⟨row', hrow', hchrow⟩ := hch
  unfold set_points_in_board at hrow'
  rw [List.mem_map] at hrow'
  obtain ⟨⟨i, row⟩, hrowmem, rfl⟩ := hrow'
  rw [List.mem_map] at hchrow
  obtain ⟨⟨j, x⟩, hxmem, rfl⟩ := hchrow
  have hrowb : row ∈ board :=
    List.getElem?_mem (List.mk_mem_enum_iff_getElem?.mp hrowmem)
  have hxrow : x ∈ row :=
    List.getElem?_mem (List.mk_mem_enum_iff_getElem?.mp hxmem)
  by_cases hcond : ((i : Int), (j : Int)) ∈ points ∧ x = '-'
  · rw [if_pos hcond]
    left
    rfl
  · rw [if_neg hcond]
    right
    rw [List.mem_flatten]
    exact ⟨row, hrowb, hxrow⟩

theorem set_points_flatten_length (points : List Coord) (board : Board)
    (value : Char) :
    (set_points_in_board points board value).flatten.length =
      board.flatten.length := by
  rw [List.length_flatten, List.length_flatten]
  congr 1
  apply List.ext_getElem
  · rw [List.length_map, List.length_map, set_points_length]
  · intro r h1 h2
    rw [List.getElem_map, List.getElem_map]
    have := set_points_row_length points board value r
    rw [List.getD_eq_getElem _ _ (by simpa [set_points_length] using
        (by simpa using h2 : r < board.length)),
      List.getD_eq_getElem _ _ (by simpa using h2 : r < board.length)] at this
    exact this

theorem set_points_getD_unlisted (points : List Coord) (board : Board)
    (value : Char) (r c : Nat) (hr : r < board.length)
    (hc : c < (board.getD r []).length)
    (hnot : ((r : Int), (c : Int)) ∉ points) :
    ((set_points_in_board points board value).getD r []).getD c ' ' =
      (board.getD r []).getD c ' ' := by
  rw [set_points_getD _ _ _ _ _ hr hc, if_neg (fun h => hnot h.1)]

theorem set_points_rect (points : List Coord) (board : Board) (value : Char)
    (hrect : ∀ row ∈ board, row.length = (board.getD 0 []).length) :
    ∀ row ∈ set_points_in_board points board value,
      row.length = ((set_points_in_board points board value).getD 0 []).length := by
  intro row hrow
  obtain ⟨r, hr, rfl⟩ := List.mem_iff_getElem.mp hrow
  rw [set_points_length] at hr
  rw [← List.getD_eq_getElem (set_points_in_board points board value) []
    (by rw [set_points_length]; exact hr)]
  rw [set_points_row_length, set_points_row_length]
  exact hrect (board.getD r []) (by
    rw [List.getD_eq_getElem _ _ hr]
    exact List.getElem_mem _)

theorem count_set_points (points : List Coord) (board : Board) (value ch : Char)
    (hnd : points.Nodup)
    (hrect : ∀ row ∈ board, row.length = (board.getD 0 []).length)
    (hall : ∀ p ∈ points, inBounds board p ∧ cellAt board p = '-') :
    (set_points_in_board points board value).flatten.count ch
        + (if '-' = ch then points.length else 0) =
      board.flatten.count ch + (if value = ch then points.length else 0) := by
  induction points generalizing board with
  | nil => simp [set_points_nil]
  | cons p rest ih =>
    obtain ⟨⟨hp1, hp2, hp3, hp4⟩, hpd⟩ := hall p (by simp)
    have hpeq : p = ((p.1.toNat : Int), (p.2.toNat : Int)) := by
      rw [Int.toNat_of_nonneg hp1, Int.toNat_of_nonneg hp3]
    have hr : p.1.toNat < board.length := by omega
    have hrowmem : board.getD p.1.toNat [] ∈ board := by
      rw [List.getD_eq_getElem _ _ hr]
      exact List.getElem_mem _
    have hcw : p.2.toNat < (board.getD p.1.toNat []).length := by
      rw [hrect _ hrowmem]
      omega
    have hsingle := count_set_points_single p.1.toNat p.2.toNat board value ch
      hr hcw (by unfold cellAt at hpd; exact hpd)
    rw [← hpeq] at hsingle
    have hcons := set_points_cons p rest board value
    -- invariants on the intermediate board
    have hlen1 : (set_points_in_board [p] board value).length = board.length :=
      set_points_length _ _ _
    have hrect1 : ∀ row ∈ set_points_in_board [p] board value,
        row.length = ((set_points_in_board [p] board value).getD 0 []).length :=
      set_points_rect [p] board value hrect
    have hall1 : ∀ q ∈ rest, inBounds (set_points_in_board [p] board value) q ∧
        cellAt (set_points_in_board [p] board value) q = '-' := by
      intro q hq
      obtain ⟨⟨hq1, hq2, hq3, hq4⟩, hqd⟩ := hall q (List.mem_cons_of_mem _ hq)
      have hqne : q ≠ p := by
        rintro rfl
        exact (List.nodup_cons.mp hnd).1 hq
      have hqr : q.1.toNat < board.length := by omega
      have hqc : q.2.toNat < (board.getD q.1.toNat []).length := by
        rw [hrect _ (by
          rw [List.getD_eq_getElem _ _ hqr]
          exact List.getElem_mem _)]
        omega
      have hqeq : q = ((q.1.toNat : Int), (q.2.toNat : Int)) := by
        rw [Int.toNat_of_nonneg hq1, Int.toNat_of_nonneg hq3]
      constructor
      · refine ⟨hq1, ?_, hq3, ?_⟩
        · rw [hlen1]; omega
        · rw [set_points_row_length]; omega
      · unfold cellAt
        rw [set_points_getD_unlisted [p] board value q.1.toNat q.2.toNat hqr hqc
          (by
            rw [← hqeq]
            simp only [List.mem_singleton]
            exact hqne)]
        unfold cellAt at hqd
        exact hqd
    have hih := ih (set_points_in_board [p] board value) (List.nodup_cons.mp hnd).2 hrect1 hall1
    rw [hcons]
    rw [List.length_cons]
    split_ifs at hsingle hih ⊢ <;> omega

/-- **C4, counterexample.** A 4×15 board (narrower dimension 4, even) that
`no_symmetry_issue` rejects: the width 15 is odd, so the code transposes
the board and applies the centre-line test to the middle column, which
holds 3 `'X'` cells here, and the Y cells all lie left of it. -/
theorem no_symmetry_issue_4x15_counterexample :
    symBoard4x15.map List.length = [15, 15, 15, 15] ∧
    no_symmetry_issue symBoard4x15 = false := by decide

/-- **C4, amended.** The symmetry filter is bypassed exactly when the
board's width (`len(board[0])`) is 10: every such board — in particular
every board of the 6x10 rectangle — is accepted.  (For the 4x15 rectangle
the filter does apply, across the centre column, the width 15 being odd.) -/
theorem no_symmetry_issue_of_width10 (board : Board)
    (h : (board.getD 0 []).length = 10) :
    no_symmetry_issue board = true := by
  unfold no_symmetry_issue
  rw [if_pos h]

/-- Witness for the amended C4 at a concrete input: the first initial board
of the 6x10 rectangle is accepted. -/
theorem no_symmetry_issue_of_width10_witness :
    ((((get_boards.getD 3 ("", [])).2.getD 0 []).getD 0 []).length = 10) ∧
    no_symmetry_issue ((get_boards.getD 3 ("", [])).2.getD 0 []) = true :=
  ⟨by decide, no_symmetry_issue_of_width10 _ (by decide)⟩

/-- `rangeDown (m+1)` puts `m+1` in front. -/
theorem rangeDown_succ (m : Nat) : rangeDown (m + 1) = (m + 1) :: rangeDown m := by
  simp [rangeDown, List.range_succ]

/-- Membership in `rangeDown`. -/
theorem mem_rangeDown {n m : Nat} : n ∈ rangeDown m ↔ 1 ≤ n ∧ n ≤ m := by
  simp only [rangeDown, List.mem_map, List.mem_reverse, List.mem_range]
  constructor
  · rintro ⟨k, hk, rfl⟩; omega
  · rintro ⟨h1, h2⟩; exact ⟨n - 1, by omega, by omega⟩

/-- `rangeDown m` is strictly decreasing. -/
theorem chain'_rangeDown (m : Nat) : (rangeDown m).Chain' (· > ·) := by
  induction m with
  | zero => simp [rangeDown]
  | succ k ih =>
    rw [rangeDown_succ]
    rw [List.chain'_cons']
    refine ⟨?_, ih⟩
    intro y hy
    cases k with
    | zero => simp [rangeDown] at hy
    | succ j =>
      rw [rangeDown_succ] at hy
      simp only [List.head?_cons, Option.mem_def, Option.some.injEq] at hy
      omega

/-- Decoding an id in `1..20` with `id_to_dict`/`id_dconv` and re-encoding
with `coord_to_id` is the identity. -/
theorem coord_to_id_decode (n : Nat) (h1 : 1 ≤ n) (h2 : n ≤ 20) :
    coord_to_id (id_dconv (id_to_dict (n : Int))) = (n : Int) := by
  revert h1
  revert n
  decide

/-- **C9, counterexample.** For the root parent node, `get_off_coords`
produces the candidates with ring ids `[2, 1]` — a strictly decreasing, not
non-decreasing, sequence. -/
theorem get_off_coords_order_counterexample :
    (get_off_coords (0, ⟨(0, 0), [], -1⟩)).map coord_to_id = [2, 1] ∧
    ¬ List.Chain' (· ≤ ·) ((get_off_coords (0, ⟨(0, 0), [], -1⟩)).map coord_to_id) := by
  have h : (get_off_coords (0, ⟨(0, 0), [], -1⟩)).map coord_to_id = [2, 1] := by
    decide
  refine ⟨h, ?_⟩
  rw [h, List.chain'_cons]
  simp

/-- **C9, amended.** For every parent node with lineage length at most 3
(all parents the tree growth ever visits), `get_off_coords` lists its
candidates in strictly *decreasing* ring-indexed id order — a
far-origin-first scan, the reverse of the claimed near-origin-first order. -/
theorem get_off_coords_order (p_node : Nat × RNode)
    (h : p_node.2.lineage.length ≤ 3) :
    ((get_off_coords p_node).map coord_to_id).Chain' (· > ·) := by
  have hm : max_indx p_node.2.lineage.length ≤ 20 := by
    have h20 : ∀ L, L ≤ 3 → max_indx L ≤ 20 := by decide
    exact h20 _ h
  unfold get_off_coords
  rw [List.map_map]
  have hcongr : ∀ n ∈ rangeDown (max_indx p_node.2.lineage.length),
      (coord_to_id ∘ fun (sq_id : Nat) => id_dconv (id_to_dict (sq_id : Int))) n = (n : Int) := by
    intro n hn
    rw [mem_rangeDown] at hn
    exact coord_to_id_decode n hn.1 (le_trans hn.2 hm)
  rw [List.map_congr_left hcongr]
  rw [List.chain'_map]
  apply List.Chain'.imp ?_ (chain'_rangeDown (max_indx p_node.2.lineage.length))
  intro a b hab
  exact_mod_cast hab

/-- Witness for the amended C9 at a concrete input: the root node. -/
theorem get_off_coords_order_witness :
    ((0, (⟨(0, 0), [], -1⟩ : RNode)).2.lineage.length ≤ 3) ∧
    ((get_off_coords (0, ⟨(0, 0), [], -1⟩)).map coord_to_id).Chain' (· > ·) :=
  ⟨by decide, get_off_coords_order (0, ⟨(0, 0), [], -1⟩) (by decide)⟩

/-- `keepFirsts` only depends on the membership of its `seen` argument. -/
theorem keepFirsts_congr : ∀ (xs : List RNode) (s1 s2 : List Nat),
    (∀ v, v ∈ s1 ↔ v ∈ s2) → keepFirsts s1 xs = keepFirsts s2 xs := by
  intro xs
  induction xs with
  | nil => intro s1 s2 _; rfl
  | cons x xs ih =>
    intro s1 s2 h
    simp only [keepFirsts]
    by_cases hx : comp_val x ∈ s1
    · rw [if_pos hx, if_pos ((h _).mp hx)]
      exact ih s1 s2 h
    · rw [if_neg hx, if_neg (fun hc => hx ((h _).mpr hc))]
      refine congrArg _ (ih _ _ ?_)
      intro v
      simp only [List.mem_cons]
      exact or_congr_right (h v)

/-- The flag-zip-filter computation of `rm_dups`, generalised over a list
`pre` of already-seen values, is the keep-first dedup. -/
theorem rm_dups_aux : ∀ (xs : List RNode) (pre : List Nat),
    (((xs.zip ((List.range xs.length).map (fun i =>
        !(decide ((xs.map comp_val).getD i 0 ∈ pre) ||
          decide ((xs.map comp_val).getD i 0 ∈ (xs.map comp_val).take i))))).filter
      (fun z => z.2)).map (fun z => z.1)) = keepFirsts pre xs := by
  intro xs
  induction xs with
  | nil => intro pre; rfl
  | cons x xs ih =>
    intro pre
    rw [List.length_cons, List.range_succ_eq_map]
    rw [List.map_cons, List.map_map]
    simp only [List.map_cons, List.take_zero, List.getD_cons_zero,
      Function.comp_def, Nat.succ_eq_add_one, List.take_succ_cons, List.getD_cons_succ,
      List.not_mem_nil, decide_False, Bool.or_false]
    rw [List.zip_cons_cons, List.filter_cons]
    rw [List.map_congr_left (g := fun i =>
        !(decide ((xs.map comp_val).getD i 0 ∈ comp_val x :: pre) ||
          decide ((xs.map comp_val).getD i 0 ∈ (xs.map comp_val).take i)))
      (fun i _ => by
        by_cases h1 : (xs.map comp_val).getD i 0 ∈ pre <;>
        by_cases h2 : (xs.map comp_val).getD i 0 = comp_val x <;>
        by_cases h3 : (xs.map comp_val).getD i 0 ∈ (xs.map comp_val).take i <;>
        simp [h1, h2, h3, List.mem_cons, Bool.and_left_comm, Bool.and_comm,
          Bool.and_assoc])]
    by_cases hx : comp_val x ∈ pre
    · rw [if_neg (by simp [hx])]
      rw [keepFirsts, if_pos hx]
      rw [ih (comp_val x :: pre)]
      refine keepFirsts_congr xs _ _ (fun v => ?_)
      constructor
      · intro hv
        rcases List.mem_cons.mp hv with rfl | h
        · exact hx
        · exact h
      · intro hv
        exact List.mem_cons_of_mem _ hv
    · rw [if_pos (by simp [hx])]
      rw [keepFirsts, if_neg hx]
      simp only [List.map_cons]
      exact congrArg _ (ih (comp_val x :: pre))

/-- `rm_dups` computes the keep-first dedup with nothing seen yet. -/
theorem rm_dups_eq_keepFirsts (tree_lev : List RNode) :
    rm_dups tree_lev = keepFirsts [] tree_lev := by
  have h := rm_dups_aux tree_lev []
  simp only [List.not_mem_nil, decide_False, Bool.false_or] at h
  rw [rm_dups]
  simp only [List.length_map]
  exact h

/-- **C6.** In the tree built by the growth procedure, no two nodes of the
same level share the value `get_val(lineage + [coord])`; and the dedup pass
`rm_dups` keeps, for each distinct value, exactly the first node in
generation order (discarding all later nodes with that value and keeping
the relative order of the survivors), i.e. it is the keep-first dedup. -/
theorem tree_level_vals_nodup_and_rm_dups_keeps_first :
    (∀ lv ∈ [0, 1, 2, 3, 4], ((tlevel grow_tree lv).map comp_val).Nodup) ∧
    (∀ tree_lev : List RNode, rm_dups tree_lev = keepFirsts [] tree_lev) :=
  ⟨by decide, rm_dups_eq_keepFirsts⟩

/-- Witness for C6 at a concrete input: the leaf level, and a two-node
level whose second node duplicates the first node's value. -/
theorem tree_level_vals_nodup_witness :
    ((4 : Nat) ∈ [0, 1, 2, 3, 4] ∧
      ((tlevel grow_tree 4).map comp_val).Nodup) ∧
    rm_dups [dfltNode, dfltNode] = keepFirsts [] [dfltNode, dfltNode] :=
  ⟨⟨by decide, tree_level_vals_nodup_and_rm_dups_keeps_first.1 4 (by decide)⟩,
   tree_level_vals_nodup_and_rm_dups_keeps_first.2 [dfltNode, dfltNode]⟩

/-- **C7.** For every level-4 (leaf) node produced by the tree-growth rule,
the orientation signature `min(gen_rots(lineage + [coord]))` is one of the
12 table keys, so the table lookup of `get_figure` succeeds on every leaf —
the fatal unmapped-signature branch (Python `KeyError`, modelled by `none`)
is unreachable, and every leaf of the finished tree carries a figure. -/
theorem leaf_signature_in_table :
    (∀ f ∈ grow_raw_tree.getD 4 [],
      ((gen_rots (f.lineage ++ [f.coord])).min?.getD 0) ∈
        [55, 87, 118, 535, 563, 566, 1047, 1125, 1126, 1140, 3110, 66067] ∧
      (get_figure f).isSome = true) ∧
    (∀ lf ∈ grow_tree.leaves, lf.figure.isSome = true) := by decide

/-- Witness for C7 at a concrete input: the first leaf of the raw tree and
the first leaf of the finished tree. -/
theorem leaf_signature_in_table_witness :
    (((gen_rots (((grow_raw_tree.getD 4 []).getD 0 dfltNode).lineage ++
        [((grow_raw_tree.getD 4 []).getD 0 dfltNode).coord])).min?.getD 0) ∈
      [55, 87, 118, 535, 563, 566, 1047, 1125, 1126, 1140, 3110, 66067] ∧
      (get_figure ((grow_raw_tree.getD 4 []).getD 0 dfltNode)).isSome = true) ∧
    (grow_tree.leaves.getD 0 dfltFNode).figure.isSome = true :=
  ⟨leaf_signature_in_table.1 ((grow_raw_tree.getD 4 []).getD 0 dfltNode)
      (by decide),
   leaf_signature_in_table.2 (grow_tree.leaves.getD 0 dfltFNode) (by decide)⟩

/-- **C8.** In the finished tree: within each of the four child levels the
`pindx` values are non-decreasing; every node of the first four levels has
at least one child in the next level; and each such node's `offspring`
field is precisely the index of the first node of the next level whose
`pindx` equals that node's index (`list.index` never fails, i.e. the
`findIdx?` is `some`), which together with monotonicity makes each node's
children the contiguous block of `countP` entries starting at `offspring`. -/
theorem tree_offspring_links :
    ∀ lv ∈ [0, 1, 2, 3],
      (∀ j ∈ List.range ((tlevel grow_tree (lv + 1)).length - 1),
        ((tlevel grow_tree (lv + 1)).getD j dfltNode).pindx ≤
          ((tlevel grow_tree (lv + 1)).getD (j + 1) dfltNode).pindx) ∧
      (∀ i ∈ List.range (tlevel grow_tree lv).length,
        (i : Int) ∈ (tlevel grow_tree (lv + 1)).map RNode.pindx) ∧
      (∀ p ∈ (grow_tree.inner.getD lv []).enum,
        p.2.offspring.isSome = true ∧
        p.2.offspring = (tlevel grow_tree (lv + 1)).findIdx?
          (fun n => n.pindx = (p.1 : Int)) ∧
        (∀ j ∈ List.range (tlevel grow_tree (lv + 1)).length,
          (((tlevel grow_tree (lv + 1)).getD j dfltNode).pindx = (p.1 : Int) ↔
            (p.2.offspring.getD 0 ≤ j ∧
             j < p.2.offspring.getD 0 +
               (tlevel grow_tree (lv + 1)).countP
                 (fun n => decide (n.pindx = (p.1 : Int))))))) := by decide

/-- Witness for C8 at a concrete input: the root level. -/
theorem tree_offspring_links_witness :
    (∀ j ∈ List.range ((tlevel grow_tree 1).length - 1),
      ((tlevel grow_tree 1).getD j dfltNode).pindx ≤
        ((tlevel grow_tree 1).getD (j + 1) dfltNode).pindx) ∧
    (∀ i ∈ List.range (tlevel grow_tree 0).length,
      (i : Int) ∈ (tlevel grow_tree 1).map RNode.pindx) ∧
    (∀ p ∈ (grow_tree.inner.getD 0 []).enum,
      p.2.offspring.isSome = true ∧
      p.2.offspring = (tlevel grow_tree 1).findIdx?
        (fun n => n.pindx = (p.1 : Int)) ∧
      (∀ j ∈ List.range (tlevel grow_tree 1).length,
        (((tlevel grow_tree 1).getD j dfltNode).pindx = (p.1 : Int) ↔
          (p.2.offspring.getD 0 ≤ j ∧
           j < p.2.offspring.getD 0 +
             (tlevel grow_tree 1).countP
               (fun n => decide (n.pindx = (p.1 : Int))))))) :=
  tree_offspring_links 0 (by decide)

/-- The characters of a stringified board. -/
theorem stringify_data (board : Board) :
    (stringify board).data = List.intercalate ['\n'] board := rfl

/-- Joining rows with newlines preserves counts of non-newline chars. -/
theorem count_intercalate_newline (ch : Char) (hch : ch ≠ '\n') :
    ∀ board : Board,
      (List.intercalate ['\n'] board).count ch = board.flatten.count ch := by
  intro board
  induction board with
  | nil => rfl
  | cons row rest ih =>
    cases rest with
    | nil => simp [List.intercalate]
    | cons row2 rest2 =>
      rw [List.intercalate] at ih ⊢
      rw [List.intersperse_cons_cons, List.flatten_cons, List.flatten_cons,
        List.count_append, List.count_append, List.flatten_cons,
        List.count_append]
      have h1 : List.count ch ['\n'] = 0 := by
        simp only [List.count_singleton, beq_iff_eq]
        exact if_neg (fun h => hch h.symm)
      rw [h1, ih]
      omega

/-- Summing an indicator over a duplicate-free list containing `x`. -/
theorem sum_if_mem (x : Char) : ∀ (allowed : List Char), allowed.Nodup →
    x ∈ allowed →
    (allowed.map (fun a => if x = a then 1 else 0)).sum = 1 := by
  intro allowed
  induction allowed with
  | nil => intro _ h; cases h
  | cons a as ih =>
    intro hnd hmem
    rw [List.map_cons, List.sum_cons]
    by_cases hx : x = a
    · rw [if_pos hx]
      have hnotin : x ∉ as := by
        rw [hx]
        exact (List.nodup_cons.mp hnd).1
      have hz : (as.map (fun a => if x = a then 1 else 0)).sum = 0 := by
        apply List.sum_eq_zero
        intro y hy
        rw [List.mem_map] at hy
        obtain ⟨b, hb, rfl⟩ := hy
        rw [if_neg (fun hc => hnotin (by rw [hc]; exact hb))]
      omega
    · rw [if_neg hx]
      rcases List.mem_cons.mp hmem with rfl | hmem2
      · exact absurd rfl hx
      · rw [ih (List.nodup_cons.mp hnd).2 hmem2]

/-- Counts over a covering alphabet sum to the length. -/
theorem sum_counts (allowed : List Char) (hnd : allowed.Nodup) :
    ∀ l : List Char, (∀ x ∈ l, x ∈ allowed) →
      (allowed.map (fun a => l.count a)).sum = l.length := by
  intro l
  induction l with
  | nil => intro _; simp
  | cons x t ih =>
    intro hsub
    have hx : x ∈ allowed := hsub x (by simp)
    have hstep : (allowed.map (fun a => (x :: t).count a)).sum =
        (allowed.map (fun a => t.count a + if x = a then 1 else 0)).sum := by
      congr 1
      apply List.map_congr_left
      intro a _
      rw [List.count_cons]
      simp [beq_iff_eq]
    rw [hstep, List.sum_map_add, ih (fun y hy => hsub y (List.mem_cons_of_mem _ hy)),
      sum_if_mem x allowed hnd hx, List.length_cons]

/-- Entries bounded by `c` summing to `length * c` all equal `c`. -/
theorem all_eq_of_sum (c : Nat) : ∀ l : List Nat, (∀ x ∈ l, x ≤ c) →
    l.sum = l.length * c → ∀ x ∈ l, x = c := by
  intro l
  induction l with
  | nil => intro _ _ x hx; cases hx
  | cons a t ih =>
    intro hle hsum x hx
    have hts : t.sum ≤ t.length * c := by
      have := List.sum_le_card_nsmul t c (fun x hx => hle x (List.mem_cons_of_mem _ hx))
      simpa [smul_eq_mul] using this
    have ha : a ≤ c := hle a (by simp)
    rw [List.sum_cons, List.length_cons] at hsum
    have hac : a = c ∧ t.sum = t.length * c := by
      constructor <;> nlinarith [hts, ha]
    rcases List.mem_cons.mp hx with rfl | hxt
    · exact hac.1
    · exact ih (fun y hy => hle y (List.mem_cons_of_mem _ hy)) hac.2 x hxt

/-- Every leaf figure of the finished tree is a pentomino letter. -/
theorem tree_leaf_letters : ∀ lf ∈ grow_tree.leaves,
    lf.figure.getD '?' ∈ LETTERS := by decide

/-- One unfolding of the `chk_ps` recursion. -/
theorem chk_ps_fuel_succ (tree : PentTree) (fuel : Nat) (sboard : Board) :
    chk_ps_fuel tree (fuel + 1) sboard =
      (((find_tiles tree sboard).filter (dup_pc tree sboard)).map (fun fnumb =>
        let newboard := set_points_in_board
          (add_fig_brd (leafNode tree fnumb) (find_origin sboard)) sboard
          (leafFig tree fnumb)
        if newboard.flatten.count '-' = 0 then
          if no_symmetry_issue newboard then [stringify newboard] else []
        else if fragment_ok newboard ∧ no_symmetry_issue newboard then
          chk_ps_fuel tree fuel newboard
        else [])).flatten := rfl

/-- Every string `chk_ps` emits from a board satisfying `XPlacedInv` is a
full solution (induction over the fuel). -/
theorem chk_ps_preserves : ∀ (fuel : Nat) (board : Board), XPlacedInv board →
    (chk_ps_fuel grow_tree fuel board).Forall fullSolution := by
  intro fuel
  induction fuel with
  | zero =>
    intro board _
    exact trivial
  | succ fuel ih =>
    intro board hinv
    obtain ⟨hrect, hh, h60, hchars, hcounts, hdashpos⟩ := hinv
    rw [List.forall_iff_forall_mem]
    intro s hs
    rw [chk_ps_fuel_succ, List.mem_flatten] at hs
    obtain ⟨l, hl, hsl⟩ := hs
    rw [List.mem_map] at hl
    obtain ⟨fnumb, hfnumb, rfl⟩ := hl
    rw [List.mem_filter] at hfnumb
    obtain ⟨hfmem, hdup⟩ := hfnumb
    have hdash : '-' ∈ board.flatten := List.count_pos_iff.mp hdashpos
    have hsound := find_tiles_sound_core board hrect hh hdash fnumb hfmem
    obtain ⟨hf0, hflen, hcells5, hcellsnd, hcellsok, _, _⟩ := hsound
    simp only at hsl
    -- abbreviations
    have hfig : leafFig grow_tree fnumb ∈ LETTERS := by
      have heq : leafFig grow_tree fnumb =
          (grow_tree.leaves.getD fnumb.toNat dfltFNode).figure.getD '?' := rfl
      rw [heq, List.getD_eq_getElem _ _ hflen]
      exact tree_leaf_letters _ (List.getElem_mem _)
    have hfigdash : leafFig grow_tree fnumb ≠ '-' := by
      intro hcon
      rw [hcon] at hfig
      simp [LETTERS] at hfig
    have hfig0 : board.flatten.count (leafFig grow_tree fnumb) = 0 := by
      unfold dup_pc at hdup
      rw [Bool.not_eq_true'] at hdup
      refine List.count_eq_zero.mpr ?_
      simpa using hdup
    have hcount := fun ch => count_set_points
      (add_fig_brd (leafNode grow_tree fnumb) (find_origin board)) board
      (leafFig grow_tree fnumb) ch hcellsnd hrect hcellsok
    rw [hcells5] at hcount
    -- facts about the new board
    set nb := set_points_in_board
      (add_fig_brd (leafNode grow_tree fnumb) (find_origin board)) board
      (leafFig grow_tree fnumb) with hnbdef
    have hnbrect : ∀ row ∈ nb, row.length = (nb.getD 0 []).length :=
      set_points_rect _ _ _ hrect
    have hnbh : 0 < nb.length := by
      rw [hnbdef, set_points_length]
      exact hh
    have hnb60 : nb.flatten.length = 60 := by
      rw [hnbdef, set_points_flatten_length]
      exact h60
    have hnbchars : ∀ ch ∈ nb.flatten, ch = '-' ∨ ch ∈ LETTERS := by
      intro ch hch
      rcases set_points_flatten_chars _ _ _ ch hch with rfl | hold
      · right; exact hfig
      · exact hchars ch hold
    have hnbletters : ∀ ch ∈ LETTERS,
        nb.flatten.count ch = 0 ∨ nb.flatten.count ch = 5 := by
      intro ch hch
      have hc := hcount ch
      have hchd : '-' ≠ ch := by
        intro hcon
        rw [← hcon] at hch
        simp [LETTERS] at hch
      rw [if_neg hchd] at hc
      by_cases hf : leafFig grow_tree fnumb = ch
      · rw [if_pos hf] at hc
        right
        rw [← hf] at hc ⊢
        omega
      · rw [if_neg hf] at hc
        rcases hcounts ch hch with h0 | h5
        · left; omega
        · right; omega
    -- branch analysis
    by_cases hfull : nb.flatten.count '-' = 0
    · rw [if_pos hfull] at hsl
      by_cases hsym : no_symmetry_issue nb
      · rw [if_pos hsym, List.mem_singleton] at hsl
        subst hsl
        constructor
        · rw [stringify_data]
          intro hcon
          have : nb.flatten.count '-' ≠ 0 := by
            rw [← count_intercalate_newline '-' (by decide) nb]
            intro hz
            rw [List.count_eq_zero] at hz
            exact hz hcon
          exact this hfull
        · intro ch hch
          have hchnl : ch ≠ '\n' := by
            have hall : ∀ c ∈ LETTERS, c ≠ '\n' := by decide
            exact hall ch hch
          rw [stringify_data, count_intercalate_newline ch hchnl]
          -- every cell of nb is a letter
          have hsub : ∀ x ∈ nb.flatten, x ∈ LETTERS := by
            intro x hx
            rcases hnbchars x hx with rfl | h
            · exact absurd (List.count_eq_zero.mp hfull hx) (fun _ => by
                exact (List.count_eq_zero.mp hfull hx))
            · exact h
          have hsum := sum_counts LETTERS (by decide) nb.flatten hsub
          rw [hnb60] at hsum
          have hle : ∀ x ∈ LETTERS.map (fun a => nb.flatten.count a), x ≤ 5 := by
            intro x hx
            rw [List.mem_map] at hx
            obtain ⟨a, ha, rfl⟩ := hx
            rcases hnbletters a ha with h | h <;> omega
          have hall := all_eq_of_sum 5 (LETTERS.map (fun a => nb.flatten.count a))
            hle (by
              rw [hsum, List.length_map]
              rfl)
          exact hall _ (List.mem_map_of_mem _ hch)
      · rw [if_neg hsym] at hsl
        cases hsl
    · rw [if_neg hfull] at hsl
      by_cases hcond : fragment_ok nb ∧ no_symmetry_issue nb
      · rw [if_pos hcond] at hsl
        have hnbinv : XPlacedInv nb :=
          ⟨hnbrect, hnbh, hnb60, hnbchars, hnbletters, by omega⟩
        have hforall := ih nb hnbinv
        rw [List.forall_iff_forall_mem] at hforall
        exact hforall s hsl
      · rw [if_neg hcond] at hsl
        cases hsl

/-- **C5.** Every initial board of `get_boards` satisfies the X-placed
invariant; every string emitted by the recursive search `chk_ps` from any
board satisfying that invariant — hence every solution string emitted by
`solve()` — is a completely filled board: it contains no `'-'` character
and contains each of the 12 pentomino letters in exactly 5 cells, each
pentomino being used exactly once. -/
theorem solve_emits_full_solutions :
    (∀ kv ∈ get_boards, ∀ b ∈ kv.2, XPlacedInv b) ∧
    (∀ (fuel : Nat) (board : Board), XPlacedInv board →
      (chk_ps_fuel grow_tree fuel board).Forall fullSolution) ∧
    (∀ fuel : Nat, (solve_fuel fuel).Forall (fun kv => kv.2.Forall fullSolution)) := by
  have hboards : ∀ kv ∈ get_boards, ∀ b ∈ kv.2, XPlacedInv b := by decide
  refine ⟨hboards, chk_ps_preserves, ?_⟩
  intro fuel
  rw [List.forall_iff_forall_mem]
  intro kv hkv
  rw [List.forall_iff_forall_mem]
  intro s hs
  unfold solve_fuel at hkv
  rw [List.mem_map] at hkv
  obtain ⟨kv1, hkv1, rfl⟩ := hkv
  unfold make_layout_cmd at hkv1
  rw [List.mem_map] at hkv1
  obtain ⟨kv0, hkv0, rfl⟩ := hkv1
  simp only at hs
  rw [List.mem_flatten] at hs
  obtain ⟨l, hl, hsl⟩ := hs
  rw [List.mem_map] at hl
  obtain ⟨b, hb, rfl⟩ := hl
  rw [List.mem_flatten] at hb
  obtain ⟨bl, hbl, hbmem⟩ := hb
  rw [List.mem_map] at hbl
  obtain ⟨b0, hb0, rfl⟩ := hbl
  have hbeq : b = b0 := by
    by_cases hfr : fragment_ok b0
    · rw [if_pos hfr] at hbmem
      exact List.mem_singleton.mp hbmem
    · rw [if_neg hfr] at hbmem
      cases hbmem
  subst hbeq
  have hres := chk_ps_preserves fuel b (hboards kv0 hkv0 b hb0)
  rw [List.forall_iff_forall_mem] at hres
  exact hres s hsl

/-- Witness for C5 at a concrete input: the first 3x20 initial board
satisfies the invariant, and the fuel-0 search trivially satisfies the
conclusion. -/
theorem solve_emits_full_solutions_witness :
    ((get_boards.getD 0 ("", [])) ∈ get_boards ∧
      ((get_boards.getD 0 ("", [])).2.getD 0 []) ∈ (get_boards.getD 0 ("", [])).2 ∧
      XPlacedInv ((get_boards.getD 0 ("", [])).2.getD 0 [])) ∧
    (chk_ps_fuel grow_tree 0
      ((get_boards.getD 0 ("", [])).2.getD 0 [])).Forall fullSolution :=
  ⟨⟨by decide, by decide,
    solve_emits_full_solutions.1 (get_boards.getD 0 ("", [])) (by decide)
      ((get_boards.getD 0 ("", [])).2.getD 0 []) (by decide)⟩,
   solve_emits_full_solutions.2.1 0 ((get_boards.getD 0 ("", [])).2.getD 0 [])
     (by decide)⟩

theorem mem_markedF {b : Board} {p : Nat × Nat} :
    p ∈ markedF b ↔ p.1 < b.length ∧ p.2 < (b.getD 0 []).length ∧
      cellN b p = 'A' := by
  unfold markedF
  rw [Finset.mem_filter, Finset.mem_product, Finset.mem_range, Finset.mem_range]
  tauto

/-- A list of naturals summed as a `Finset.range` sum. -/
theorem list_sum_eq_sum_range : ∀ l : List Nat,
    l.sum = ∑ i ∈ Finset.range l.length, l.getD i 0 := by
  intro l
  induction l with
  | nil => simp
  | cons x t ih =>
    rw [List.sum_cons, List.length_cons, Finset.sum_range_succ']
    simp only [List.getD_cons_succ, List.getD_cons_zero]
    rw [← ih]
    omega

/-- Row-level: count as a sum of indicators over the column range. -/
theorem count_eq_sum_range (ch : Char) : ∀ (row : List Char),
    row.count ch = ∑ c ∈ Finset.range row.length,
      (if row.getD c ' ' = ch then 1 else 0) := by
  intro row
  induction row with
  | nil => simp
  | cons x t ih =>
    rw [List.count_cons, List.length_cons, Finset.sum_range_succ']
    simp only [List.getD_cons_succ, List.getD_cons_zero]
    rw [← ih]
    simp [beq_iff_eq]

/-- `countA` is the cardinality of the marked-cell set, on a rectangular
board. -/
theorem countA_eq_card (b : Board)
    (hrect : ∀ row ∈ b, row.length = (b.getD 0 []).length) :
    countA b = (markedF b).card := by
  unfold countA markedF
  rw [Finset.card_filter, Finset.sum_product]
  rw [List.count_flatten, list_sum_eq_sum_range, List.length_map]
  apply Finset.sum_congr rfl
  intro r hr
  rw [Finset.mem_range] at hr
  rw [List.getD_eq_getElem _ _ (by simpa using hr), List.getElem_map]
  have hlen : b[r].length = (b.getD 0 []).length := by
    have hmem : b[r] ∈ b := List.getElem_mem _
    have := hrect b[r] hmem
    exact this
  rw [count_eq_sum_range, hlen]
  apply Finset.sum_congr rfl
  intro c _
  unfold cellN
  rw [List.getD_eq_getElem b ([] : List Char) hr]

theorem chk_length (b : Board) : (chk_open_area b).length = b.length := by
  unfold chk_open_area
  simp

theorem chk_row (b : Board) (r : Nat) (hr : r < b.length) :
    (chk_open_area b).getD r [] =
      (List.range (b.getD 0 []).length).map (fun x => increase_a_range b (r, x)) := by
  unfold chk_open_area
  rw [List.getD_eq_getElem _ _ (by simpa using hr), List.getElem_map,
    List.getElem_range]

theorem chk_width (b : Board) (r : Nat) (hr : r < b.length) :
    ((chk_open_area b).getD r []).length = (b.getD 0 []).length := by
  rw [chk_row b r hr]
  simp

theorem chk_cell (b : Board) (r c : Nat) (hr : r < b.length)
    (hc : c < (b.getD 0 []).length) :
    cellN (chk_open_area b) (r, c) = increase_a_range b (r, c) := by
  unfold cellN
  rw [chk_row b r hr]
  rw [List.getD_eq_getElem _ _ (by simpa using hc), List.getElem_map,
    List.getElem_range]

theorem increase_keep (b : Board) (p : Nat × Nat)
    (h : cellN b p ≠ '-') : increase_a_range b p = cellN b p := by
  unfold increase_a_range cellN at *
  rw [if_pos h]

theorem increase_flood (b : Board)
    (hrect : ∀ row ∈ b, row.length = (b.getD 0 []).length)
    (r c : Nat) (hr : r < b.length) (hc : c < (b.getD 0 []).length)
    (hdash : cellN b (r, c) = '-') :
    increase_a_range b (r, c) =
      (if ∃ q ∈ markedF b, adjN q (r, c) then 'A' else '-') := by
  have hcode : increase_a_range b (r, c) =
      if (r > 0 ∧ cellN b (r - 1, c) = 'A') ∨
         (c > 0 ∧ cellN b (r, c - 1) = 'A') ∨
         (r < b.length - 1 ∧ cellN b (r + 1, c) = 'A') ∨
         (c < (b.getD 0 []).length - 1 ∧ cellN b (r, c + 1) = 'A')
      then 'A' else '-' := by
    unfold increase_a_range
    simp only [cellN]
    dsimp only
    rw [if_neg (by simpa [cellN] using hdash)]
    by_cases h1 : r > 0 ∧ (b.getD (r - 1) []).getD c ' ' = 'A'
    · rw [if_pos h1, if_pos (Or.inl h1)]
    · rw [if_neg h1]
      by_cases h2 : c > 0 ∧ (b.getD r []).getD (c - 1) ' ' = 'A'
      · rw [if_pos h2, if_pos (Or.inr (Or.inl h2))]
      · rw [if_neg h2]
        by_cases h3 : r < b.length - 1 ∧ (b.getD (r + 1) []).getD c ' ' = 'A'
        · rw [if_pos h3, if_pos (Or.inr (Or.inr (Or.inl h3)))]
        · rw [if_neg h3]
          by_cases h4 : c < (b.getD 0 []).length - 1 ∧
              (b.getD r []).getD (c + 1) ' ' = 'A'
          · rw [if_pos h4, if_pos (Or.inr (Or.inr (Or.inr h4)))]
          · rw [if_neg h4, if_neg (by tauto)]
  rw [hcode]
  by_cases hex : ∃ q ∈ markedF b, adjN q (r, c)
  · rw [if_pos hex]
    obtain ⟨q, hqm, hadj⟩ := hex
    rw [mem_markedF] at hqm
    obtain ⟨hq1, hq2, hq3⟩ := hqm
    have hdisj : (r > 0 ∧ cellN b (r - 1, c) = 'A') ∨
        (c > 0 ∧ cellN b (r, c - 1) = 'A') ∨
        (r < b.length - 1 ∧ cellN b (r + 1, c) = 'A') ∨
        (c < (b.getD 0 []).length - 1 ∧ cellN b (r, c + 1) = 'A') := by
      unfold adjN at hadj
      rcases hadj with ⟨he, hd | hd⟩ | ⟨he, hd | hd⟩
      · right; right; right
        refine ⟨by omega, ?_⟩
        have hq : q = (r, c + 1) := by
          apply Prod.ext <;> simp <;> omega
        rw [← hq]
        exact hq3
      · right; left
        refine ⟨by omega, ?_⟩
        have hq : q = (r, c - 1) := by
          apply Prod.ext <;> simp <;> omega
        rw [← hq]
        exact hq3
      · right; right; left
        refine ⟨by omega, ?_⟩
        have hq : q = (r + 1, c) := by
          apply Prod.ext <;> simp <;> omega
        rw [← hq]
        exact hq3
      · left
        refine ⟨by omega, ?_⟩
        have hq : q = (r - 1, c) := by
          apply Prod.ext <;> simp <;> omega
        rw [← hq]
        exact hq3
    rw [if_pos hdisj]
  · rw [if_neg hex]
    have hnd : ¬((r > 0 ∧ cellN b (r - 1, c) = 'A') ∨
        (c > 0 ∧ cellN b (r, c - 1) = 'A') ∨
        (r < b.length - 1 ∧ cellN b (r + 1, c) = 'A') ∨
        (c < (b.getD 0 []).length - 1 ∧ cellN b (r, c + 1) = 'A')) := by
      rintro (⟨hg, hcell⟩ | ⟨hg, hcell⟩ | ⟨hg, hcell⟩ | ⟨hg, hcell⟩)
      · exact hex ⟨(r - 1, c), mem_markedF.mpr ⟨by omega, by omega, hcell⟩,
          Or.inr ⟨by omega, by omega⟩⟩
      · exact hex ⟨(r, c - 1), mem_markedF.mpr ⟨by omega, by omega, hcell⟩,
          Or.inl ⟨by omega, by omega⟩⟩
      · exact hex ⟨(r + 1, c), mem_markedF.mpr ⟨by omega, by omega, hcell⟩,
          Or.inr ⟨by omega, by omega⟩⟩
      · exact hex ⟨(r, c + 1), mem_markedF.mpr ⟨by omega, by omega, hcell⟩,
          Or.inl ⟨by omega, by omega⟩⟩
    rw [if_neg hnd]

/-- Every cell of the open region is an open cell. -/
theorem region_open (board : Board)
    (hrect : ∀ row ∈ board, row.length = (board.getD 0 []).length)
    (hh : 0 < board.length) (hdash : '-' ∈ board.flatten) :
    ∀ p ∈ open_region board, openN board p := by
  intro p hp
  induction hp with
  | refl =>
    obtain ⟨⟨h1, h2, h3, h4⟩, h5⟩ := find_origin_spec board hrect hh hdash
    unfold openN originN
    dsimp only
    refine ⟨by omega, by omega, ?_⟩
    unfold cellN
    unfold cellAt at h5
    exact h5
  | tail _ hstep _ => exact hstep.2.1

/-- The rows of `chk_open_area` all have the row-0 width of the input. -/
theorem chk_rect (x : Board) :
    ∀ row ∈ chk_open_area x, row.length = ((chk_open_area x).getD 0 []).length := by
  intro row hrow
  obtain ⟨r, hr, rfl⟩ := List.mem_iff_getElem.mp hrow
  rw [chk_length] at hr
  rw [← List.getD_eq_getElem (chk_open_area x) ([] : List Char)
    (by rw [chk_length]; exact hr)]
  rw [chk_width x r hr]
  by_cases h0 : 0 < x.length
  · rw [chk_width x 0 h0]
  · omega

/-- Marking passes only add marks. -/
theorem markedF_mono (x : Board) : markedF x ⊆ markedF (chk_open_area x) := by
  intro p hp
  rw [mem_markedF] at hp ⊢
  obtain ⟨h1, h2, h3⟩ := hp
  have h0 : 0 < x.length := by omega
  refine ⟨by rw [chk_length]; omega, by rw [chk_width x 0 h0]; omega, ?_⟩
  have hcell := chk_cell x p.1 p.2 h1 h2
  have hkeep := increase_keep x (p.1, p.2) (by
    unfold cellN at h3 ⊢
    rw [h3]
    decide)
  rw [show ((p.1, p.2) : Nat × Nat) = p from rfl] at hcell hkeep
  rw [hcell, hkeep, h3]

/-- Membership in the marked set after one pass. -/
theorem mem_markedF_chk (x : Board)
    (hxrect : ∀ row ∈ x, row.length = (x.getD 0 []).length)
    (p : Nat × Nat) :
    p ∈ markedF (chk_open_area x) ↔ p ∈ markedF x ∨
      (p.1 < x.length ∧ p.2 < (x.getD 0 []).length ∧ cellN x p = '-' ∧
        ∃ q ∈ markedF x, adjN q p) := by
  constructor
  · intro hp
    rw [mem_markedF] at hp
    obtain ⟨h1, h2, h3⟩ := hp
    rw [chk_length] at h1
    have h0 : 0 < x.length := by omega
    rw [chk_width x 0 h0] at h2
    have hcell := chk_cell x p.1 p.2 h1 h2
    rw [show ((p.1, p.2) : Nat × Nat) = p from rfl] at hcell
    by_cases hdash : cellN x p = '-'
    · right
      refine ⟨h1, h2, hdash, ?_⟩
      have hfl := increase_flood x hxrect p.1 p.2 h1 h2 (by
        rw [show ((p.1, p.2) : Nat × Nat) = p from rfl]
        exact hdash)
      rw [show ((p.1, p.2) : Nat × Nat) = p from rfl] at hfl
      rw [hcell, hfl] at h3
      by_cases hex : ∃ q ∈ markedF x, adjN q p
      · exact hex
      · rw [if_neg hex] at h3
        cases h3
    · left
      have hkeep := increase_keep x p hdash
      rw [hcell, hkeep] at h3
      exact mem_markedF.mpr ⟨h1, h2, h3⟩
  · intro hp
    rcases hp with hp | ⟨h1, h2, hdash, hex⟩
    · exact markedF_mono x hp
    · have h0 : 0 < x.length := by omega
      rw [mem_markedF]
      refine ⟨by rw [chk_length]; omega, by rw [chk_width x 0 h0]; omega, ?_⟩
      have hcell := chk_cell x p.1 p.2 h1 h2
      have hfl := increase_flood x hxrect p.1 p.2 h1 h2 (by
        rw [show ((p.1, p.2) : Nat × Nat) = p from rfl]
        exact hdash)
      rw [show ((p.1, p.2) : Nat × Nat) = p from rfl] at hcell hfl
      rw [hcell, hfl, if_pos hex]

/-- One marking pass preserves the flood invariant. -/
theorem floodInv_chk (board x : Board)
    (hrect : ∀ row ∈ board, row.length = (board.getD 0 []).length)
    (hh : 0 < board.length) (hdash : '-' ∈ board.flatten)
    (hinv : floodInv board x) : floodInv board (chk_open_area x) := by
  obtain ⟨hd1, hd2, hxrect, hmarked, hunch, horig⟩ := hinv
  have h0 : 0 < x.length := by omega
  refine ⟨by rw [chk_length]; omega, by rw [chk_width x 0 h0]; omega,
    chk_rect x, ?_, ?_, markedF_mono x horig⟩
  · intro p hp
    rcases (mem_markedF_chk x hxrect p).mp hp with hp | ⟨h1, h2, hpd, q, hqm, hadj⟩
    · exact hmarked p hp
    · have hq := hmarked q hqm
      have hopenp : openN board p := by
        refine ⟨by omega, by omega, ?_⟩
        rw [← hunch p h1 h2 (by rw [hpd]; decide)]
        exact hpd
      exact Relation.ReflTransGen.tail hq
        ⟨region_open board hrect hh hdash q hq, hopenp, hadj⟩
  · intro p h1 h2 hne
    rw [chk_length] at h1
    rw [chk_width x 0 h0] at h2
    have hcell := chk_cell x p.1 p.2 h1 h2
    rw [show ((p.1, p.2) : Nat × Nat) = p from rfl] at hcell
    by_cases hpd : cellN x p = '-'
    · have hfl := increase_flood x hxrect p.1 p.2 h1 h2 (by
        rw [show ((p.1, p.2) : Nat × Nat) = p from rfl]
        exact hpd)
      rw [show ((p.1, p.2) : Nat × Nat) = p from rfl] at hfl
      rw [hcell, hfl] at hne ⊢
      by_cases hex : ∃ q ∈ markedF x, adjN q p
      · rw [if_pos hex] at hne
        exact absurd rfl hne
      · rw [if_neg hex]
        rw [← hpd]
        exact hunch p h1 h2 (by rw [hpd]; decide)
    · have hkeep := increase_keep x p hpd
      rw [hcell, hkeep] at hne ⊢
      exact hunch p h1 h2 hne

/-- At a count fixpoint the marked set is stable. -/
theorem marked_fix (x : Board)
    (hxrect : ∀ row ∈ x, row.length = (x.getD 0 []).length)
    (hcnt : countA (chk_open_area x) = countA x) :
    markedF (chk_open_area x) = markedF x := by
  have h1 := countA_eq_card x hxrect
  have h2 := countA_eq_card (chk_open_area x) (chk_rect x)
  exact (Finset.eq_of_subset_of_card_le (markedF_mono x) (by omega)).symm

/-- At a fixpoint satisfying the invariant, the marked set is exactly the
open region. -/
theorem marked_eq_region (board x : Board)
    (hrect : ∀ row ∈ board, row.length = (board.getD 0 []).length)
    (hh : 0 < board.length) (hdash : '-' ∈ board.flatten)
    (hinv : floodInv board x)
    (hfix : markedF (chk_open_area x) = markedF x) :
    ↑(markedF x) = open_region board := by
  obtain ⟨hd1, hd2, hxrect, hmarked, hunch, horig⟩ := hinv
  apply Set.eq_of_subset_of_subset
  · intro p hp
    exact hmarked p hp
  · intro p hp
    induction hp with
    | refl => exact horig
    | tail hsteps hstep ih =>
      rename_i b' p'
      have hpo := hstep.2.1
      obtain ⟨hpb1, hpb2, hpb3⟩ := hpo
      have h1 : p'.1 < x.length := by omega
      have h2 : p'.2 < (x.getD 0 []).length := by omega
      by_cases hA : cellN x p' = 'A'
      · exact mem_markedF.mpr ⟨h1, h2, hA⟩
      · have hpd : cellN x p' = '-' := by
          rw [hunch p' h1 h2 hA]
          exact hpb3
        have : p' ∈ markedF (chk_open_area x) :=
          (mem_markedF_chk x hxrect p').mpr
            (Or.inr ⟨h1, h2, hpd, b', ih, hstep.2.2⟩)
        rw [hfix] at this
        exact this

/-- The marked set is bounded by the grid. -/
theorem markedF_card_le (x : Board) :
    (markedF x).card ≤ x.length * (x.getD 0 []).length := by
  calc (markedF x).card ≤
      ((Finset.range x.length) ×ˢ (Finset.range (x.getD 0 []).length)).card :=
        Finset.card_filter_le _ _
    _ = x.length * (x.getD 0 []).length := by
        rw [Finset.card_product, Finset.card_range, Finset.card_range]

/-- A rectangular board's flattening has `height * width` cells. -/
theorem flatten_length_rect (b : Board)
    (hrect : ∀ row ∈ b, row.length = (b.getD 0 []).length) :
    b.flatten.length = b.length * (b.getD 0 []).length := by
  rw [List.length_flatten]
  have hrepl : b.map List.length = List.replicate b.length (b.getD 0 []).length := by
    rw [List.eq_replicate_iff]
    refine ⟨by simp, ?_⟩
    intro x hx
    obtain ⟨r, hr, rfl⟩ := List.mem_map.mp hx
    exact hrect r hr
  rw [hrepl, List.sum_replicate, smul_eq_mul]

/-- Any in-range cell value occurs in the flattening. -/
theorem cellN_mem_flatten (b : Board) (p : Nat × Nat) (h1 : p.1 < b.length)
    (h2 : p.2 < (b.getD p.1 []).length) : cellN b p ∈ b.flatten := by
  rw [List.mem_flatten]
  refine ⟨b.getD p.1 [], ?_, ?_⟩
  · rw [List.getD_eq_getElem _ _ h1]
    exact List.getElem_mem _
  · unfold cellN
    rw [List.getD_eq_getElem _ _ h2]
    exact List.getElem_mem _

/-- The board with the first open cell marked satisfies the invariant. -/
theorem floodInv_init (board : Board)
    (hrect : ∀ row ∈ board, row.length = (board.getD 0 []).length)
    (hh : 0 < board.length) (hdash : '-' ∈ board.flatten)
    (hA : 'A' ∉ board.flatten) :
    floodInv board (set_points_in_board [find_origin board] board 'A') := by
  obtain ⟨⟨ho1, ho2, ho3, ho4⟩, ho5⟩ := find_origin_spec board hrect hh hdash
  have hwidth : ∀ r : Nat, r < board.length →
      (board.getD r []).length = (board.getD 0 []).length := by
    intro r hr
    exact hrect _ (by rw [List.getD_eq_getElem _ _ hr]; exact List.getElem_mem _)
  refine ⟨set_points_length _ _ _, set_points_row_length _ _ _ 0,
    set_points_rect _ _ _ hrect, ?_, ?_, ?_⟩
  · intro p hp
    rw [mem_markedF, set_points_length, set_points_row_length] at hp
    obtain ⟨h1, h2, h3⟩ := hp
    have h2' : p.2 < (board.getD p.1 []).length := by
      rw [hwidth p.1 h1]
      exact h2
    unfold cellN at h3
    rw [set_points_getD _ _ _ _ _ h1 h2'] at h3
    by_cases hcond : ((p.1 : Int), (p.2 : Int)) ∈ [find_origin board] ∧
        (board.getD p.1 []).getD p.2 ' ' = '-'
    · have hpo : p = originN board := by
        have := List.mem_singleton.mp hcond.1
        unfold originN
        rw [← this]
        simp
      rw [hpo]
      exact Relation.ReflTransGen.refl
    · rw [if_neg hcond] at h3
      exact absurd (h3 ▸ cellN_mem_flatten board p h1 h2') hA
  · intro p h1 h2 hne
    rw [set_points_length] at h1
    rw [set_points_row_length] at h2
    have h2' : p.2 < (board.getD p.1 []).length := by
      rw [hwidth p.1 h1]
      exact h2
    unfold cellN at hne ⊢
    rw [set_points_getD _ _ _ _ _ h1 h2'] at hne ⊢
    by_cases hcond : ((p.1 : Int), (p.2 : Int)) ∈ [find_origin board] ∧
        (board.getD p.1 []).getD p.2 ' ' = '-'
    · rw [if_pos hcond] at hne
      exact absurd rfl hne
    · rw [if_neg hcond]
  · rw [mem_markedF, set_points_length, set_points_row_length]
    unfold originN
    refine ⟨by omega, by omega, ?_⟩
    have h1 : (find_origin board).1.toNat < board.length := by omega
    have h2' : (find_origin board).2.toNat < (board.getD (find_origin board).1.toNat []).length := by
      rw [hwidth _ h1]
      omega
    unfold cellN
    dsimp only
    rw [set_points_getD _ _ _ _ _ h1 h2']
    rw [if_pos ⟨by
      rw [List.mem_singleton]
      rw [Int.toNat_of_nonneg ho1, Int.toNat_of_nonneg ho3], by
      unfold cellAt at ho5
      exact ho5⟩]

/-- The fuel recursion of `count_open_area` computes the region size. -/
theorem coa_fuel_correct (board : Board)
    (hrect : ∀ row ∈ board, row.length = (board.getD 0 []).length)
    (hh : 0 < board.length) (hdash : '-' ∈ board.flatten) :
    ∀ (fuel : Nat) (x : Board), floodInv board x →
      board.length * (board.getD 0 []).length ≤ fuel + countA x →
      count_open_area_fuel fuel x = (open_region board).ncard := by
  intro fuel
  induction fuel with
  | zero =>
    intro x hinv hfuel
    obtain ⟨hd1, hd2, hxrect, hmarked, hunch, horig⟩ := hinv
    have hcard := countA_eq_card x hxrect
    have hle := markedF_card_le x
    have hxw : x.length * (x.getD 0 []).length =
        board.length * (board.getD 0 []).length := by rw [hd1, hd2]
    have hfull : (markedF x).card = x.length * (x.getD 0 []).length := by omega
    have hsub : markedF x ⊆
        (Finset.range x.length) ×ˢ (Finset.range (x.getD 0 []).length) := by
      intro p hp
      rw [mem_markedF] at hp
      rw [Finset.mem_product, Finset.mem_range, Finset.mem_range]
      exact ⟨hp.1, hp.2.1⟩
    have hsetfull : markedF x =
        (Finset.range x.length) ×ˢ (Finset.range (x.getD 0 []).length) := by
      refine Finset.eq_of_subset_of_card_le hsub ?_
      rw [hfull, Finset.card_product, Finset.card_range, Finset.card_range]
    have hregion : ↑(markedF x) = open_region board := by
      apply Set.eq_of_subset_of_subset
      · intro p hp
        exact hmarked p hp
      · intro p hp
        have hop := region_open board hrect hh hdash p hp
        show p ∈ markedF x
        rw [hsetfull, Finset.mem_product, Finset.mem_range, Finset.mem_range]
        obtain ⟨hp1, hp2, _⟩ := hop
        exact ⟨by omega, by omega⟩
    rw [show count_open_area_fuel 0 x = countA x from rfl]
    rw [hcard, ← Set.ncard_coe_Finset, hregion]
  | succ fuel ih =>
    intro x hinv hfuel
    have hxrect := hinv.2.2.1
    rw [show count_open_area_fuel (fuel + 1) x =
      (if countA (chk_open_area x) = countA x then countA x
       else count_open_area_fuel fuel (chk_open_area x)) from rfl]
    by_cases hfix : countA (chk_open_area x) = countA x
    · rw [if_pos hfix]
      have hregion := marked_eq_region board x hrect hh hdash hinv
        (marked_fix x hxrect hfix)
      rw [countA_eq_card x hxrect, ← Set.ncard_coe_Finset, hregion]
    · rw [if_neg hfix]
      apply ih (chk_open_area x) (floodInv_chk board x hrect hh hdash hinv)
      have hmono : countA x ≤ countA (chk_open_area x) := by
        rw [countA_eq_card x hxrect, countA_eq_card _ (chk_rect x)]
        exact Finset.card_le_card (markedF_mono x)
      omega

/-- **C3.** For every well-formed board containing at least one open cell,
`fragment_ok` returns `true` iff the size of the maximal 4-connected region
of `'-'` cells containing the first open cell is divisible by 5; and the
concrete board whose first open cell sits in an isolated 4-cell pocket is
rejected. -/
theorem fragment_ok_iff_region :
    (∀ board : Board,
      (∀ row ∈ board, row.length = (board.getD 0 []).length) →
      0 < board.length → '-' ∈ board.flatten → 'A' ∉ board.flatten →
      (fragment_ok board = true ↔ (open_region board).ncard % 5 = 0)) ∧
    (pocketBoard.map List.length = [4, 4, 4] ∧
      fragment_ok pocketBoard = false) := by
  constructor
  · intro board hrect hh hdash hA
    have hinv := floodInv_init board hrect hh hdash hA
    have hb0rect := set_points_rect [find_origin board] board 'A' hrect
    have hmain : count_open_area
        (set_points_in_board [find_origin board] board 'A') =
        (open_region board).ncard := by
      unfold count_open_area
      apply coa_fuel_correct board hrect hh hdash _ _ hinv
      have hfl : (set_points_in_board [find_origin board] board 'A').flatten.length =
          board.length * (board.getD 0 []).length := by
        rw [flatten_length_rect _ hb0rect, set_points_length,
          set_points_row_length]
      omega
    unfold fragment_ok
    rw [decide_eq_true_eq, hmain]
  · exact ⟨by decide, by decide⟩

/-- Witness for C3 at a concrete input: the pocket board itself. -/
theorem fragment_ok_iff_region_witness :
    ((∀ row ∈ pocketBoard, row.length = (pocketBoard.getD 0 []).length) ∧
      0 < pocketBoard.length ∧ '-' ∈ pocketBoard.flatten ∧
      'A' ∉ pocketBoard.flatten) ∧
    (fragment_ok pocketBoard = true ↔ (open_region pocketBoard).ncard % 5 = 0) :=
  ⟨⟨by decide, by decide, by decide, by decide⟩,
   fragment_ok_iff_region.1 pocketBoard (by decide) (by decide) (by decide)
     (by decide)⟩

set_option maxHeartbeats 16000000 in
/-- The finite completeness check evaluates to `true`. -/
theorem C1check_eq : C1check = true := by decide

/-- Reachable cells lie in the base list. -/
theorem reachL_subset {s : List Coord} {n : Nat} {p : Coord}
    (h : p ∈ reachL s n) : p ∈ s := by
  cases n with
  | zero => exact List.mem_of_mem_filter h
  | succ n => exact List.mem_of_mem_filter h

/-- Membership in the 0-step reach: just the origin, if present. -/
theorem reachL_zero_mem {s : List Coord} {p : Coord} :
    p ∈ reachL s 0 ↔ p ∈ s ∧ p = ((0 : Int), (0 : Int)) := by
  unfold reachL
  rw [List.mem_filter]
  simp

/-- Membership in the `n+1`-step reach: previous cells and their
neighbours inside `s`. -/
theorem reachL_succ_mem {s : List Coord} {n : Nat} {p : Coord} :
    p ∈ reachL s (n + 1) ↔ p ∈ s ∧
      (p ∈ reachL s n ∨ ∃ q ∈ reachL s n, adjCoord q p) := by
  conv_lhs => rw [reachL]
  rw [List.mem_filter]
  simp [List.any_eq_true]

/-- The reach grows with the step count. -/
theorem reachL_mono {s : List Coord} {n : Nat} {p : Coord}
    (h : p ∈ reachL s n) : p ∈ reachL s (n + 1) :=
  reachL_succ_mem.mpr ⟨reachL_subset h, Or.inl h⟩

/-- Monotonicity of the reach in the step count. -/
theorem reachL_le {s : List Coord} {m n : Nat} (hmn : m ≤ n) {p : Coord}
    (h : p ∈ reachL s m) : p ∈ reachL s n := by
  obtain ⟨k, rfl⟩ := Nat.le.dest hmn
  clear hmn
  induction k with
  | zero => exact h
  | succ k ih => exact reachL_mono ih

/-- The reach only depends on the membership of the base list. -/
theorem reachL_congr {s1 s2 : List Coord} (h : ∀ x, x ∈ s1 ↔ x ∈ s2) :
    ∀ n p, p ∈ reachL s1 n ↔ p ∈ reachL s2 n := by
  intro n
  induction n with
  | zero => intro p; rw [reachL_zero_mem, reachL_zero_mem, h]
  | succ n ih =>
    intro p
    rw [reachL_succ_mem, reachL_succ_mem, h]
    constructor
    · rintro ⟨hp, hrest⟩
      refine ⟨hp, ?_⟩
      rcases hrest with hprev | ⟨q, hq, hadj⟩
      · exact Or.inl ((ih p).mp hprev)
      · exact Or.inr ⟨q, (ih q).mp hq, hadj⟩
    · rintro ⟨hp, hrest⟩
      refine ⟨hp, ?_⟩
      rcases hrest with hprev | ⟨q, hq, hadj⟩
      · exact Or.inl ((ih p).mpr hprev)
      · exact Or.inr ⟨q, (ih q).mpr hq, hadj⟩

/-- A fixed point of the reach contains every cell connected to the
origin inside `s`. -/
theorem reachL_closed {s : List Coord} {n : Nat}
    (hfix : ∀ p, p ∈ reachL s (n + 1) → p ∈ reachL s n)
    (h0 : ((0 : Int), (0 : Int)) ∈ s) :
    ∀ p, Relation.ReflTransGen (stepIn s) (((0 : Int), (0 : Int))) p →
      p ∈ reachL s n := by
  intro p hp
  induction hp with
  | refl => exact reachL_le (Nat.zero_le n) (reachL_zero_mem.mpr ⟨h0, rfl⟩)
  | tail hbc hstep ih =>
    rename_i b c
    exact hfix c (reachL_succ_mem.mpr ⟨hstep.2.1, Or.inr ⟨b, ih, hstep.2.2⟩⟩)

/-- The reach of a duplicate-free list is duplicate-free. -/
theorem reachL_nodup {s : List Coord} (hnd : s.Nodup) (n : Nat) :
    (reachL s n).Nodup := by
  cases n with
  | zero => exact hnd.filter _
  | succ n => exact hnd.filter _

/-- On a connected 5-cell list containing the origin, 4 steps reach
everything: either the iteration hits a fixed point early, or its size grows
beyond the list's. -/
theorem reachL_complete {s : List Coord} (hnd : s.Nodup) (hlen : s.length = 5)
    (h0 : ((0 : Int), (0 : Int)) ∈ s)
    (hconn : ∀ p ∈ s, Relation.ReflTransGen (stepIn s) (((0 : Int), (0 : Int))) p) :
    ∀ p ∈ s, p ∈ reachL s 4 := by
  by_cases hfix : ∃ n < 4, ∀ p, p ∈ reachL s (n + 1) → p ∈ reachL s n
  · obtain ⟨n, hn4, hf⟩ := hfix
    intro p hp
    exact reachL_le (by omega) (reachL_closed hf h0 p (hconn p hp))
  · push_neg at hfix
    -- all four steps grow the reach strictly, so it has ≥ 5 elements
    have hgrow : ∀ n < 4, (reachL s n).toFinset ⊂ (reachL s (n + 1)).toFinset := by
      intro n hn
      obtain ⟨p, hp1, hp0⟩ := hfix n hn
      constructor
      · intro x hx
        rw [List.mem_toFinset] at hx ⊢
        exact reachL_mono hx
      · intro hcon
        exact hp0 (List.mem_toFinset.mp (hcon (List.mem_toFinset.mpr hp1)))
    have h00 : (((0 : Int), (0 : Int)) : Coord) ∈ reachL s 0 :=
      reachL_zero_mem.mpr ⟨h0, rfl⟩
    have hcard : ∀ n ≤ 4, n + 1 ≤ (reachL s n).toFinset.card := by
      intro n hn
      induction n with
      | zero =>
        exact Finset.card_pos.mpr ⟨_, List.mem_toFinset.mpr h00⟩
      | succ n ih =>
        have h1 := Finset.card_lt_card (hgrow n (by omega))
        have h2 := ih (by omega)
        omega
    have hsub : (reachL s 4).toFinset ⊆ s.toFinset := by
      intro x hx
      rw [List.mem_toFinset] at hx ⊢
      exact reachL_subset hx
    have hcards : s.toFinset.card = 5 := by
      rw [List.toFinset_card_of_nodup hnd, hlen]
    have heq : (reachL s 4).toFinset = s.toFinset := by
      apply Finset.eq_of_subset_of_card_le hsub
      rw [hcards]
      exact hcard 4 (le_refl 4)
    intro p hp
    have : p ∈ (reachL s 4).toFinset := by
      rw [heq, List.mem_toFinset]
      exact hp
    exact List.mem_toFinset.mp this

/-- Cells reached in `n` steps are within Manhattan distance `n` of the
origin. -/
theorem reachL_dist {s : List Coord} :
    ∀ n, ∀ p ∈ reachL s n, p.1.natAbs + p.2.natAbs ≤ n := by
  intro n
  induction n with
  | zero =>
    intro p hp
    obtain ⟨-, rfl⟩ := reachL_zero_mem.mp hp
    simp
  | succ n ih =>
    intro p hp
    rcases (reachL_succ_mem.mp hp).2 with hprev | ⟨q, hq, hadj⟩
    · exact Nat.le_succ_of_le (ih p hprev)
    · have hqd := ih q hq
      unfold adjCoord at hadj
      omega

/-- Every relative cell within Manhattan distance 4 that is right of the
origin column, or below the origin in its column, is a candidate. -/
theorem mem_C20I {d : Coord} (h1 : d.1.natAbs + d.2.natAbs ≤ 4)
    (h2 : 0 < d.2 ∨ (d.2 = 0 ∧ 0 < d.1)) : d ∈ C20I := by
  obtain ⟨a, b⟩ := d
  simp only at h1 h2
  have ha : -4 ≤ a ∧ a ≤ 4 := by omega
  have hb : 0 ≤ b ∧ b ≤ 4 := by omega
  obtain ⟨ha1, ha2⟩ := ha
  obtain ⟨hb1, hb2⟩ := hb
  interval_cases a <;> interval_cases b <;>
    first
      | decide
      | (exfalso; omega)

-- mask lemmas

/-- Bits of a code-list mask are exactly the listed codes. -/
theorem testBit_maskOfN {l : List Nat} {c : Nat} :
    (maskOfN l).testBit c = true ↔ c ∈ l := by
  induction l with
  | nil => simp [maskOfN, Nat.testBit]
  | cons a t ih =>
    show ((maskOfN t) ||| (1 <<< a)).testBit c = true ↔ c ∈ a :: t
    rw [Nat.testBit_lor, Nat.one_shiftLeft, Nat.testBit_two_pow]
    simp only [Bool.or_eq_true, decide_eq_true_eq, List.mem_cons, ih]
    constructor
    · rintro (h | h)
      · exact Or.inr h
      · exact Or.inl h.symm
    · rintro (h | h)
      · exact Or.inr h.symm
      · exact Or.inl h

/-- Bit-level reading of one breadth-first mask step. -/
theorem testBit_stepM {s acc c : Nat} :
    (stepM s acc).testBit c = true ↔ s.testBit c = true ∧
      (acc.testBit c = true ∨ ∃ q, acc.testBit q = true ∧ nbr q c = true) := by
  unfold stepM nbr
  simp only [Nat.testBit_land, Nat.testBit_lor, Nat.testBit_shiftLeft,
    Nat.testBit_shiftRight, Bool.and_eq_true, Bool.or_eq_true,
    decide_eq_true_eq, ge_iff_le, beq_iff_eq]
  constructor
  · rintro ⟨hs, hrest⟩
    refine ⟨hs, ?_⟩
    rcases hrest with (((h | ⟨h1, h⟩) | h) | ⟨h9, h⟩) | h
    · exact Or.inl h
    · exact Or.inr ⟨c - 1, h, Or.inl (Or.inl (Or.inl (by omega)))⟩
    · exact Or.inr ⟨1 + c, h, Or.inl (Or.inl (Or.inr (by omega)))⟩
    · exact Or.inr ⟨c - 9, h, Or.inl (Or.inr (by omega))⟩
    · exact Or.inr ⟨9 + c, h, Or.inr (by omega)⟩
  · rintro ⟨hs, hrest⟩
    refine ⟨hs, ?_⟩
    rcases hrest with h | ⟨q, hq, hnbr⟩
    · exact Or.inl (Or.inl (Or.inl (Or.inl h)))
    · rcases hnbr with ((h1 | h1) | h1) | h1
      · refine Or.inl (Or.inl (Or.inl (Or.inr ⟨by omega, ?_⟩)))
        have hqe : c - 1 = q := by omega
        rw [hqe]; exact hq
      · refine Or.inl (Or.inl (Or.inr ?_))
        have hqe : 1 + c = q := by omega
        rw [hqe]; exact hq
      · refine Or.inl (Or.inr ⟨by omega, ?_⟩)
        have hqe : c - 9 = q := by omega
        rw [hqe]; exact hq
      · refine Or.inr ?_
        have hqe : 9 + c = q := by omega
        rw [hqe]; exact hq

/-- On the candidate cells, code adjacency agrees with cell adjacency. -/
theorem nbr_adjCoord : ∀ p ∈ C20IAll, ∀ q ∈ C20IAll,
    nbr (codeOf q) (codeOf p) = decide (adjCoord q p) := by decide

/-- The cell code is injective on the candidate cells. -/
theorem codeOf_inj : ∀ p ∈ C20IAll, ∀ q ∈ C20IAll,
    codeOf p = codeOf q → p = q := by decide

/-- The candidate codes are the codes of the candidate cells. -/
theorem C20I_map_codeOf : C20I.map codeOf = CN := by decide

/-- The candidate list has no duplicates. -/
theorem C20I_nodup : C20I.Nodup := by decide

/-- Every leaf of the finished tree uses only candidate relative cells. -/
theorem tree_leaf_cells : ∀ lf ∈ grow_tree.leaves,
    ∀ c ∈ lf.lineage ++ [lf.coord], c ∈ C20IAll := by decide

/-- The bitmask iteration computes exactly the list-level reach, through
the cell coding. -/
theorem reachM_corr {Dc : List Coord} (hsub : ∀ p ∈ Dc, p ∈ C20IAll)
    (h0 : (((0 : Int), (0 : Int)) : Coord) ∈ Dc) :
    ∀ k c, ((reachM (maskOfC Dc) k).testBit c = true ↔
      ∃ p ∈ reachL Dc k, codeOf p = c) := by
  intro k
  induction k with
  | zero =>
    intro c
    show ((1 : Nat) <<< 4).testBit c = true ↔ _
    rw [Nat.one_shiftLeft, Nat.testBit_two_pow]
    simp only [decide_eq_true_eq]
    constructor
    · rintro rfl
      exact ⟨((0 : Int), (0 : Int)), reachL_zero_mem.mpr ⟨h0, rfl⟩, rfl⟩
    · rintro ⟨p, hp, rfl⟩
      obtain ⟨-, rfl⟩ := reachL_zero_mem.mp hp
      rfl
  | succ k ih =>
    intro c
    show (stepM (maskOfC Dc) (reachM (maskOfC Dc) k)).testBit c = true ↔ _
    rw [testBit_stepM]
    have hmask : ∀ c, ((maskOfC Dc).testBit c = true ↔ ∃ p ∈ Dc, codeOf p = c) := by
      intro c
      unfold maskOfC
      rw [testBit_maskOfN, List.mem_map]
    constructor
    · rintro ⟨hs, hrest⟩
      obtain ⟨p, hpD, rfl⟩ := (hmask c).mp hs
      refine ⟨p, ?_, rfl⟩
      rw [reachL_succ_mem]
      refine ⟨hpD, ?_⟩
      rcases hrest with hacc | ⟨q, hq, hnbr⟩
      · obtain ⟨p', hp', hcp⟩ := (ih _).mp hacc
        have := codeOf_inj p' (hsub p' (reachL_subset hp')) p (hsub p hpD) hcp
        rw [← this]
        exact Or.inl hp'
      · obtain ⟨pq, hpq, rfl⟩ := (ih _).mp hq
        refine Or.inr ⟨pq, hpq, ?_⟩
        have hb := nbr_adjCoord p (hsub p hpD) pq (hsub pq (reachL_subset hpq))
        rw [hb] at hnbr
        exact of_decide_eq_true hnbr
    · rintro ⟨p, hp, rfl⟩
      have hpD : p ∈ Dc := reachL_subset hp
      refine ⟨(hmask _).mpr ⟨p, hpD, rfl⟩, ?_⟩
      rcases (reachL_succ_mem.mp hp).2 with hprev | ⟨q, hq, hadj⟩
      · exact Or.inl ((ih _).mpr ⟨p, hprev, rfl⟩)
      · refine Or.inr ⟨codeOf q, (ih _).mpr ⟨q, hq, rfl⟩, ?_⟩
        have hb := nbr_adjCoord p (hsub p hpD) q (hsub q (reachL_subset hq))
        rw [hb]
        exact decide_eq_true hadj

-- combos lemmas

/-- A successful `allGo` certifies the predicate on every member. -/
theorem allGo_eq_true {α : Type} {p : List α → Bool} :
    ∀ {L : List (List α)}, allGo p L = true → ∀ l ∈ L, p l = true := by
  intro L
  induction L with
  | nil => intro _ l hl; exact absurd hl (List.not_mem_nil l)
  | cons a t ih =>
    intro h l hl
    unfold allGo at h
    split at h
    · rcases List.mem_cons.mp hl with rfl | hl'
      · assumption
      · exact ih h l hl'
    · exact absurd h (by simp)

/-- Every sublist of the right length is enumerated by `combos`. -/
theorem mem_combos {α : Type} : ∀ {L l : List α} {n : Nat},
    List.Sublist l L → l.length = n → l ∈ combos n L := by
  intro L l n hsub
  induction hsub generalizing n with
  | slnil =>
    rintro rfl
    exact List.mem_singleton.mpr rfl
  | cons a hsub ih =>
    intro hlen
    cases n with
    | zero =>
      rw [List.length_eq_zero] at hlen
      subst hlen
      exact List.mem_singleton.mpr rfl
    | succ n =>
      show _ ∈ _ ++ _
      exact List.mem_append_right _ (ih hlen)
  | cons₂ a hsub ih =>
    intro hlen
    cases n with
    | zero => simp at hlen
    | succ n =>
      show _ ∈ _ ++ _
      refine List.mem_append_left _ ?_
      rw [List.mem_map]
      exact ⟨_, ih (by simpa using hlen), rfl⟩

/-- A successful chunked check certifies `C1predM` on every 4-element
sublist. -/
theorem chunk_complete : ∀ {L : List Nat}, chunkM L = true →
    ∀ l, List.Sublist l L → l.length = 4 → C1predM l = true := by
  intro L
  induction L with
  | nil =>
    intro _ l hsub hlen
    rw [List.sublist_nil.mp hsub] at hlen
    simp at hlen
  | cons a t ih =>
    intro h l hsub hlen
    unfold chunkM at h
    rw [Bool.and_eq_true] at h
    cases hsub with
    | cons _ hsub' => exact ih h.2 l hsub' hlen
    | cons₂ _ hsub' =>
      rename_i l'
      have hl' : l' ∈ combos 3 t := mem_combos hsub' (by simpa using hlen)
      exact allGo_eq_true h.1 l' hl'


/-- Adjacency is invariant under translation. -/
theorem adjCoord_sub (o a b : Coord) :
    adjCoord (a.1 - o.1, a.2 - o.2) (b.1 - o.1, b.2 - o.2) ↔ adjCoord a b := by
  unfold adjCoord
  dsimp only
  omega

/-- Bits of a cell-list mask are the codes of the listed cells. -/
theorem testBit_maskOfC {L : List Coord} {c : Nat} :
    (maskOfC L).testBit c = true ↔ ∃ p ∈ L, codeOf p = c := by
  unfold maskOfC
  rw [testBit_maskOfN, List.mem_map]

/-- Level 0 of the finished tree has exactly one node. -/
theorem tlevel_zero_len : (tlevel grow_tree 0).length = 1 := by
  rw [tree_root]
  rfl

/-- **C1.** Completeness of placement enumeration: for every board and every
set `S` of 5 pairwise-distinct, edge-connected (4-adjacent) cells that are
in-bounds and empty on the board and whose column-major-minimal cell (least
column, then least row) is `find_origin board`, the traversal `find_tiles`
started at level 1 with admissible-parent set `{0}` returns a leaf index
whose 5 absolute cells (origin plus each lineage coordinate, and origin plus
the leaf coordinate) are exactly `S`. -/
theorem find_tiles_complete (board : Board) (S : List Coord)
    (hlen : S.length = 5) (hnd : S.Nodup)
    (hopen : ∀ p ∈ S, inBounds board p ∧ cellAt board p = '-')
    (ho : find_origin board ∈ S)
    (hmin : ∀ p ∈ S, p ≠ find_origin board →
      (find_origin board).2 < p.2 ∨
        ((find_origin board).2 = p.2 ∧ (find_origin board).1 < p.1))
    (hconn : ∀ p ∈ S, Relation.ReflTransGen (stepIn S) (find_origin board) p) :
    ∃ f ∈ find_tiles grow_tree board,
      (add_fig_brd (leafNode grow_tree f) (find_origin board)).Perm S := by
  set o := find_origin board with ho_def
  set D := S.map (fun p : Coord => (p.1 - o.1, p.2 - o.2)) with hD
  have hrelinj : ∀ a b : Coord,
      ((a.1 - o.1, a.2 - o.2) : Coord) = (b.1 - o.1, b.2 - o.2) → a = b := by
    intro a b h
    simp only [Prod.mk.injEq] at h
    exact Prod.ext (by omega) (by omega)
  have hD5 : D.length = 5 := by rw [hD, List.length_map, hlen]
  have hDnd : D.Nodup := by
    rw [hD]
    exact hnd.map (fun a b h => hrelinj a b h)
  have h0D : (((0 : Int), (0 : Int)) : Coord) ∈ D := by
    rw [hD, List.mem_map]
    exact ⟨o, ho, by simp⟩
  have hDmem : ∀ d, d ∈ D ↔ ∃ p ∈ S, ((p.1 - o.1, p.2 - o.2) : Coord) = d := by
    intro d
    rw [hD, List.mem_map]
  have hDconn : ∀ d ∈ D,
      Relation.ReflTransGen (stepIn D) (((0 : Int), (0 : Int))) d := by
    intro d hd
    obtain ⟨p, hp, rfl⟩ := (hDmem d).mp hd
    have hstep : ∀ a b, stepIn S a b →
        stepIn D ((a.1 - o.1, a.2 - o.2)) ((b.1 - o.1, b.2 - o.2)) := by
      intro a b hab
      exact ⟨(hDmem _).mpr ⟨a, hab.1, rfl⟩, (hDmem _).mpr ⟨b, hab.2.1, rfl⟩,
        (adjCoord_sub o a b).mpr hab.2.2⟩
    have h00 : ((o.1 - o.1, o.2 - o.2) : Coord) = ((0 : Int), (0 : Int)) := by
      simp
    have hlift := Relation.ReflTransGen.lift
      (fun x : Coord => ((x.1 - o.1, x.2 - o.2) : Coord)) hstep (hconn p hp)
    dsimp only at hlift
    rw [h00] at hlift
    exact hlift
  have hDreach : ∀ d ∈ D, d ∈ reachL D 4 :=
    reachL_complete hDnd hD5 h0D hDconn
  have hDsub : ∀ d ∈ D, d ∈ C20IAll := by
    intro d hd
    by_cases hd0 : d = (((0 : Int), (0 : Int)) : Coord)
    · rw [hd0]
      decide
    · have hdist := reachL_dist 4 d (hDreach d hd)
      obtain ⟨p, hpS, hpe⟩ := (hDmem d).mp hd
      have hpne : p ≠ o := by
        intro hcon
        apply hd0
        rw [← hpe, hcon]
        simp
      have hm := hmin p hpS hpne
      have hd1 : d.1 = p.1 - o.1 := by rw [← hpe]
      have hd2 : d.2 = p.2 - o.2 := by rw [← hpe]
      have hmin' : 0 < d.2 ∨ (d.2 = 0 ∧ 0 < d.1) := by
        rw [hd1, hd2]
        omega
      exact List.mem_cons_of_mem _ (mem_C20I hdist hmin')
  -- the canonical ordered list of the four non-origin relative cells
  set l := C20I.filter (fun c => decide (c ∈ D)) with hl
  have hlsub : List.Sublist l C20I := by
    rw [hl]
    exact List.filter_sublist _
  have hlnd : l.Nodup := by
    rw [hl]
    exact C20I_nodup.filter _
  have hlmem : ∀ x, x ∈ l ↔ x ∈ C20I ∧ x ∈ D := by
    intro x
    rw [hl, List.mem_filter]
    simp
  have hDcmem : ∀ x, x ∈ ((((0 : Int), (0 : Int)) : Coord) :: l) ↔ x ∈ D := by
    intro x
    rw [List.mem_cons, hlmem]
    constructor
    · rintro (rfl | ⟨-, hx⟩)
      · exact h0D
      · exact hx
    · intro hx
      by_cases hx0 : x = (((0 : Int), (0 : Int)) : Coord)
      · exact Or.inl hx0
      · refine Or.inr ⟨?_, hx⟩
        rcases List.mem_cons.mp (hDsub x hx) with h | h
        · exact absurd h hx0
        · exact h
  have hlen4 : l.length = 4 := by
    have hfin : l.toFinset = D.toFinset.erase (((0 : Int), (0 : Int)) : Coord) := by
      ext x
      rw [List.mem_toFinset, Finset.mem_erase, List.mem_toFinset, hlmem]
      constructor
      · rintro ⟨hxC, hxD⟩
        refine ⟨?_, hxD⟩
        intro h0x
        rw [h0x] at hxC
        exact absurd hxC (by decide)
      · rintro ⟨hxne, hxD⟩
        refine ⟨?_, hxD⟩
        rcases List.mem_cons.mp (hDsub x hxD) with h | h
        · exact absurd h hxne
        · exact h
    have hc : l.toFinset.card = 4 := by
      rw [hfin, Finset.card_erase_of_mem (List.mem_toFinset.mpr h0D),
        List.toFinset_card_of_nodup hDnd, hD5]
    rw [← List.toFinset_card_of_nodup hlnd, hc]
  have hDcsub : ∀ p ∈ ((((0 : Int), (0 : Int)) : Coord) :: l), p ∈ C20IAll :=
    fun p hp => hDsub p ((hDcmem p).mp hp)
  have h0Dc : (((0 : Int), (0 : Int)) : Coord) ∈
      ((((0 : Int), (0 : Int)) : Coord) :: l) := List.mem_cons_self _ _
  have hDcreach : ∀ x ∈ ((((0 : Int), (0 : Int)) : Coord) :: l),
      x ∈ reachL ((((0 : Int), (0 : Int)) : Coord) :: l) 4 := by
    intro x hx
    exact (reachL_congr hDcmem 4 x).mpr (hDreach x ((hDcmem x).mp hx))
  have hfixM : reachM (maskOfC ((((0 : Int), (0 : Int)) : Coord) :: l)) 4 =
      maskOfC ((((0 : Int), (0 : Int)) : Coord) :: l) := by
    apply Nat.eq_of_testBit_eq
    intro i
    rw [Bool.eq_iff_iff, reachM_corr hDcsub h0Dc 4 i, testBit_maskOfC]
    constructor
    · rintro ⟨p, hp, rfl⟩
      exact ⟨p, reachL_subset hp, rfl⟩
    · rintro ⟨p, hp, rfl⟩
      exact ⟨p, hDcreach p hp, rfl⟩
  have hconnM : connM (maskOfC ((((0 : Int), (0 : Int)) : Coord) :: l)) = true := by
    unfold connM
    rw [hfixM]
    exact beq_self_eq_true _
  -- the decided enumeration applies to the code image of l
  have hlN : List.Sublist (l.map codeOf) CN := by
    rw [← C20I_map_codeOf]
    exact hlsub.map codeOf
  have hpred := chunk_complete C1check_eq (l.map codeOf) hlN
    (by rw [List.length_map, hlen4])
  have h4c : codeOf (((0 : Int), (0 : Int)) : Coord) = 4 := by decide
  have hmeq : maskOfC ((((0 : Int), (0 : Int)) : Coord) :: l) =
      maskOfN (4 :: l.map codeOf) := by
    unfold maskOfC
    rw [List.map_cons, h4c]
  unfold C1predM at hpred
  rw [← hmeq, hconnM] at hpred
  simp only [Bool.not_true, Bool.false_or] at hpred
  have hmaskmem : maskOfC ((((0 : Int), (0 : Int)) : Coord) :: l) ∈ leafMasks := by
    rw [List.contains_eq_any_beq, List.any_eq_true] at hpred
    obtain ⟨x, hx, hbx⟩ := hpred
    rw [beq_iff_eq] at hbx
    rw [hbx]
    exact hx
  unfold leafMasks at hmaskmem
  rw [List.mem_map] at hmaskmem
  obtain ⟨lf, hlf, hmasklf⟩ := hmaskmem
  -- the leaf's five relative cells are exactly the canonical list
  have hkeyiff : ∀ x, x ∈ leafKey lf ↔
      x ∈ ((((0 : Int), (0 : Int)) : Coord) :: l) := by
    intro x
    constructor
    · intro hx
      have hxall : x ∈ C20IAll := List.mem_of_mem_filter hx
      have hbit : (maskOfC (leafKey lf)).testBit (codeOf x) = true :=
        testBit_maskOfC.mpr ⟨x, hx, rfl⟩
      rw [hmasklf] at hbit
      obtain ⟨p, hp, hcp⟩ := testBit_maskOfC.mp hbit
      rw [← codeOf_inj p (hDcsub p hp) x hxall hcp]
      exact hp
    · intro hx
      have hxall : x ∈ C20IAll := hDcsub x hx
      have hbit : (maskOfC ((((0 : Int), (0 : Int)) : Coord) :: l)).testBit
          (codeOf x) = true := testBit_maskOfC.mpr ⟨x, hx, rfl⟩
      rw [← hmasklf] at hbit
      obtain ⟨p, hp, hcp⟩ := testBit_maskOfC.mp hbit
      rw [← codeOf_inj p (List.mem_of_mem_filter hp) x hxall hcp]
      exact hp
  have hcells : ∀ x, x ∈ lf.lineage ++ [lf.coord] ↔
      x ∈ ((((0 : Int), (0 : Int)) : Coord) :: l) := by
    intro x
    rw [← hkeyiff]
    unfold leafKey
    rw [List.mem_filter]
    constructor
    · intro hx
      exact ⟨tree_leaf_cells lf hlf x hx, decide_eq_true hx⟩
    · rintro ⟨-, hx⟩
      exact of_decide_eq_true hx
  -- locate the leaf and its ancestors in the tree
  obtain ⟨n4, hn4⟩ := List.mem_iff_getElem?.mp hlf
  have hget4 : (tlevel grow_tree 4)[n4]? = some lf.toRNode := by
    rw [tlevel_four, List.getElem?_map, hn4]
    rfl
  have h4 := tree_parent_links 4 (by norm_num) (n4, lf.toRNode)
    (List.mk_mem_enum_iff_getElem?.mpr hget4)
  dsimp only at h4
  set n3 := lf.toRNode.pindx.toNat with hn3_def
  set nd3 := (tlevel grow_tree 3).getD n3 dfltNode with hnd3_def
  have hget3 : (tlevel grow_tree 3)[n3]? = some nd3 := by
    rw [hnd3_def, List.getD_eq_getElem _ _ h4.2.1]
    exact List.getElem?_eq_getElem h4.2.1
  have h3 := tree_parent_links 3 (by norm_num) (n3, nd3)
    (List.mk_mem_enum_iff_getElem?.mpr hget3)
  dsimp only at h3
  set n2 := nd3.pindx.toNat with hn2_def
  set nd2 := (tlevel grow_tree 2).getD n2 dfltNode with hnd2_def
  have hget2 : (tlevel grow_tree 2)[n2]? = some nd2 := by
    rw [hnd2_def, List.getD_eq_getElem _ _ h3.2.1]
    exact List.getElem?_eq_getElem h3.2.1
  have h2 := tree_parent_links 2 (by norm_num) (n2, nd2)
    (List.mk_mem_enum_iff_getElem?.mpr hget2)
  dsimp only at h2
  set n1 := nd2.pindx.toNat with hn1_def
  set nd1 := (tlevel grow_tree 1).getD n1 dfltNode with hnd1_def
  have hget1 : (tlevel grow_tree 1)[n1]? = some nd1 := by
    rw [hnd1_def, List.getD_eq_getElem _ _ h2.2.1]
    exact List.getElem?_eq_getElem h2.2.1
  have h1 := tree_parent_links 1 (by norm_num) (n1, nd1)
    (List.mk_mem_enum_iff_getElem?.mpr hget1)
  dsimp only at h1
  have hp1 : nd1.pindx = 0 := by
    have ha := h1.1
    have hb := h1.2.1
    rw [tlevel_zero_len] at hb
    omega
  -- the lineage chain gives the five relative cells explicitly
  have hl1 : nd1.lineage = [(((0 : Int), (0 : Int)) : Coord)] := by
    have hx := h1.2.2
    rw [hp1] at hx
    rw [hx, tree_root]
    rfl
  have hl2 : nd2.lineage = glin nd1 := h2.2.2
  have hl3 : nd3.lineage = glin nd2 := h3.2.2
  have hl4 : lf.toRNode.lineage = glin nd3 := h4.2.2
  have hrel : lf.lineage ++ [lf.coord] =
      [(((0 : Int), (0 : Int)) : Coord), nd1.coord, nd2.coord, nd3.coord,
        lf.coord] := by
    have : lf.toRNode.lineage = lf.lineage := rfl
    rw [← this, hl4, glin, hl3, glin, hl2, glin, hl1]
    rfl
  -- every relative cell of the leaf denotes an open in-bounds absolute cell
  have habs : ∀ x ∈ lf.lineage ++ [lf.coord],
      ∃ p ∈ S, ((p.1 - o.1, p.2 - o.2) : Coord) = x := by
    intro x hx
    exact (hDmem x).mp ((hDcmem x).mp ((hcells x).mp hx))
  have hbadv : ∀ x ∈ lf.lineage ++ [lf.coord], is_bad o x board = false := by
    intro x hx
    obtain ⟨p, hpS, hpe⟩ := habs x hx
    rw [is_bad_false_iff]
    have hx1 : x.1 = p.1 - o.1 := by rw [← hpe]
    have hx2 : x.2 = p.2 - o.2 := by rw [← hpe]
    have habs2 : ((o.1 + x.1, o.2 + x.2) : Coord) = p := by
      rw [hx1, hx2]
      exact Prod.ext (by omega) (by omega)
    rw [habs2]
    exact hopen p hpS
  have hbad1 : is_bad o nd1.coord board = false := by
    refine hbadv nd1.coord ?_
    rw [hrel]
    simp
  have hbad2 : is_bad o nd2.coord board = false := by
    refine hbadv nd2.coord ?_
    rw [hrel]
    simp
  have hbad3 : is_bad o nd3.coord board = false := by
    refine hbadv nd3.coord ?_
    rw [hrel]
    simp
  have hbad4 : is_bad o lf.toRNode.coord board = false := by
    refine hbadv lf.coord ?_
    rw [hrel]
    simp
  -- climb the admissible sets from the root to the leaf
  have hm1 : ((n1 : Nat) : Int) ∈ f_gnodes grow_tree 1 [0] o board :=
    mem_f_gnodes.mpr ⟨n1, nd1, hget1, rfl,
      by rw [hp1]; exact List.mem_singleton.mpr rfl, hbad1⟩
  have hpe2 : ((n1 : Nat) : Int) = nd2.pindx := by
    rw [hn1_def]
    exact Int.toNat_of_nonneg h2.1
  have hm2 : ((n2 : Nat) : Int) ∈ f_gnodes grow_tree 2
      (f_gnodes grow_tree 1 [0] o board) o board :=
    mem_f_gnodes.mpr ⟨n2, nd2, hget2, rfl, by rw [← hpe2]; exact hm1, hbad2⟩
  have hpe3 : ((n2 : Nat) : Int) = nd3.pindx := by
    rw [hn2_def]
    exact Int.toNat_of_nonneg h3.1
  have hm3 : ((n3 : Nat) : Int) ∈ f_gnodes grow_tree 3
      (f_gnodes grow_tree 2 (f_gnodes grow_tree 1 [0] o board) o board)
      o board :=
    mem_f_gnodes.mpr ⟨n3, nd3, hget3, rfl, by rw [← hpe3]; exact hm2, hbad3⟩
  have hpe4 : ((n3 : Nat) : Int) = lf.toRNode.pindx := by
    rw [hn3_def]
    exact Int.toNat_of_nonneg h4.1
  have hmf : ((n4 : Nat) : Int) ∈ find_tiles grow_tree board := by
    rw [find_tiles_eq]
    exact mem_f_gnodes.mpr ⟨n4, lf.toRNode, hget4, rfl,
      by rw [← hpe4]; exact hm3, hbad4⟩
  -- identify the leaf node accessed through the returned index
  have hlnf : leafNode grow_tree ((n4 : Nat) : Int) = lf := by
    unfold leafNode
    have : (((n4 : Nat) : Int)).toNat = n4 := by simp
    rw [this]
    exact getD_of_getElem? dfltFNode hn4
  -- the five absolute cells are exactly S
  have hmemiff : ∀ q : Coord,
      q ∈ add_fig_brd (leafNode grow_tree ((n4 : Nat) : Int)) o ↔ q ∈ S := by
    intro q
    rw [hlnf, add_fig_brd_eq, List.mem_map]
    constructor
    · rintro ⟨x, hx, rfl⟩
      obtain ⟨p, hpS, hpe⟩ := habs x hx
      have hx1 : x.1 = p.1 - o.1 := by rw [← hpe]
      have hx2 : x.2 = p.2 - o.2 := by rw [← hpe]
      have : ((o.1 + x.1, o.2 + x.2) : Coord) = p := by
        rw [hx1, hx2]
        exact Prod.ext (by omega) (by omega)
      rw [this]
      exact hpS
    · intro hq
      refine ⟨((q.1 - o.1, q.2 - o.2) : Coord), ?_, ?_⟩
      · exact (hcells _).mpr ((hDcmem _).mpr ((hDmem _).mpr ⟨q, hq, rfl⟩))
      · exact Prod.ext (by dsimp only; omega) (by dsimp only; omega)
  have hndabs : (add_fig_brd (leafNode grow_tree ((n4 : Nat) : Int)) o).Nodup := by
    rw [hlnf, add_fig_brd_eq]
    exact (tree_leaf_nodup lf hlf).map (shift_injective o)
  exact ⟨((n4 : Nat) : Int), hmf,
    (List.perm_ext_iff_of_nodup hndabs hnd).mpr hmemiff⟩


/-- Witness for C1 at a concrete input: on the 5x1 open board, the
vertical I-pentomino anchored at the origin is found by `find_tiles`. -/
theorem find_tiles_complete_witness :
    (wSC1.length = 5 ∧ wSC1.Nodup ∧
      (∀ p ∈ wSC1, inBounds wBoardC1 p ∧ cellAt wBoardC1 p = '-') ∧
      find_origin wBoardC1 ∈ wSC1 ∧
      (∀ p ∈ wSC1, p ≠ find_origin wBoardC1 →
        (find_origin wBoardC1).2 < p.2 ∨
          ((find_origin wBoardC1).2 = p.2 ∧ (find_origin wBoardC1).1 < p.1))) ∧
    ∃ f ∈ find_tiles grow_tree wBoardC1,
      (add_fig_brd (leafNode grow_tree f) (find_origin wBoardC1)).Perm wSC1 :=
  ⟨⟨by decide, by decide, by decide, by decide, by decide⟩,
    find_tiles_complete wBoardC1 wSC1 (by decide) (by decide) (by decide)
      (by decide) (by decide)
      (by
        intro p hp
        have hori : find_origin wBoardC1 = (((0 : Int), (0 : Int)) : Coord) := by
          decide
        rw [hori]
        have s01 : stepIn wSC1 (((0 : Int), (0 : Int))) (1, 0) :=
          ⟨by decide, by decide, by decide⟩
        have s12 : stepIn wSC1 ((1 : Int), (0 : Int)) (2, 0) :=
          ⟨by decide, by decide, by decide⟩
        have s23 : stepIn wSC1 ((2 : Int), (0 : Int)) (3, 0) :=
          ⟨by decide, by decide, by decide⟩
        have s34 : stepIn wSC1 ((3 : Int), (0 : Int)) (4, 0) :=
          ⟨by decide, by decide, by decide⟩
        have c0 : Relation.ReflTransGen (stepIn wSC1)
            (((0 : Int), (0 : Int))) (((0 : Int), (0 : Int))) :=
          Relation.ReflTransGen.refl
        have c1 := c0.tail s01
        have c2 := c1.tail s12
        have c3 := c2.tail s23
        have c4 := c3.tail s34
        simp only [wSC1, List.mem_cons, List.not_mem_nil, or_false] at hp
        rcases hp with rfl | rfl | rfl | rfl | rfl
        · exact c0
        · exact c1
        · exact c2
        · exact c3
        · exact c4)⟩

end Pent
